import Mathlib

/-!
# Verification of the multi-floor parking lot allocator (src/cr1.py)

This file gives a shallow embedding of the parking lot system of `src/cr1.py`
and proves the specification claims about it.

The Python code stores, per floor, a min-heap list `available_spots`
(maintained with `heapq.heapify` / `heapq.heappop`) together with a set
`available_set` of the free spot indices.  The heap functions below
(`pysiftup`, `pysiftdown`, `pyheappop`, `pyheapify`) are faithful
translations of CPython's pure-Python `heapq` implementation specialised
to lists of natural numbers; the loops are written with an explicit fuel
argument (always called with sufficient fuel, as the lemmas show), so
every definition is executable by kernel reduction.
-/

set_option maxHeartbeats 1000000

/-- Read a list element, defaulting to 0 out of range (list indices in the
heap code are always in range when this matters). -/
def getE (l : List Nat) (i : Nat) : Nat := l.getD i 0

/-- The smaller-child selection of CPython `_siftup`: starting from
`childpos = 2*pos+1`, move to `rightpos` iff `rightpos < endpos` and
`not heap[childpos] < heap[rightpos]`. -/
def sChild (l : List Nat) (pos : Nat) : Nat :=
  if 2*pos+2 < l.length ∧ ¬ (getE l (2*pos+1) < getE l (2*pos+2)) then 2*pos+2 else 2*pos+1

/-- The descend-to-leaf loop of CPython `_siftup`: repeatedly copy the
smaller child up into `pos` and move `pos` down to that child, until
`2*pos+1 ≥ len`.  Returns the modified list and the final (leaf) position. -/
def siftupLoop : Nat → List Nat → Nat → List Nat × Nat
  | 0, l, pos => (l, pos)
  | fuel+1, l, pos =>
    if 2*pos+1 < l.length then
      siftupLoop fuel (l.set pos (getE l (sChild l pos))) (sChild l pos)
    else (l, pos)

/-- The loop of CPython `_siftdown(heap, startpos, pos)`: while
`pos > startpos`, compare `newitem` with the parent; if `newitem < parent`,
copy the parent down into `pos` and move `pos` up.  Returns the modified
list and the final position. -/
def siftdownLoop : Nat → List Nat → Nat → Nat → Nat → List Nat × Nat
  | 0, l, _, pos, _ => (l, pos)
  | fuel+1, l, startpos, pos, newitem =>
    if startpos < pos then
      if newitem < getE l ((pos-1)/2) then
        siftdownLoop fuel (l.set pos (getE l ((pos-1)/2))) startpos ((pos-1)/2) newitem
      else (l, pos)
    else (l, pos)

/-- CPython `heapq._siftdown(heap, startpos, pos)`. -/
def pysiftdown (l : List Nat) (startpos pos : Nat) : List Nat :=
  let r := siftdownLoop pos l startpos pos (getE l pos)
  r.1.set r.2 (getE l pos)

/-- CPython `heapq._siftup(heap, pos)`: save `newitem = heap[pos]`, descend
to a leaf along the smaller-child chain, place `newitem` at the leaf, then
sift it back down towards `pos`. -/
def pysiftup (l : List Nat) (pos : Nat) : List Nat :=
  let r := siftupLoop l.length l pos
  pysiftdown (r.1.set r.2 (getE l pos)) pos r.2

/-- CPython `heapq.heappop`: pop the last element; if the heap is nonempty
afterwards, place it at the root and sift up, returning the old root. -/
def pyheappop (l : List Nat) : Option (Nat × List Nat) :=
  match l with
  | [] => none
  | [a] => some (a, [])
  | a :: b :: rest =>
    some (a, pysiftup (((a :: b :: rest).dropLast).set 0 ((a :: b :: rest).getLastD 0)) 0)

/-- The loop of CPython `heapq.heapify`: `_siftup` at `i = n/2 - 1, …, 0`. -/
def heapifyAux : Nat → List Nat → List Nat
  | 0, l => l
  | i+1, l => heapifyAux i (pysiftup l i)

/-- CPython `heapq.heapify`. -/
def pyheapify (l : List Nat) : List Nat := heapifyAux (l.length / 2) l

/-- The binary min-heap property for a list: every non-root element is at
least its parent `(i-1)/2`. -/
def heapProp (l : List Nat) : Prop :=
  ∀ i, i < l.length → 0 < i → getE l ((i-1)/2) ≤ getE l i

instance (l : List Nat) : Decidable (heapProp l) := by
  unfold heapProp
  exact Nat.decidableBallLT l.length _

/-- `Desc i j`: index `j` lies in the subtree rooted at index `i` of the
implicit binary tree on `Nat` (children of `q` are `2q+1` and `2q+2`). -/
inductive Desc : Nat → Nat → Prop
  | refl (i : Nat) : Desc i i
  | left {i k : Nat} : Desc (2*i+1) k → Desc i k
  | right {i k : Nat} : Desc (2*i+2) k → Desc i k

/-- The heap property restricted to the subtree rooted at `p`: every
in-range parent/child pair whose parent lies in the subtree is ordered. -/
def subtreeHeap (l : List Nat) (p : Nat) : Prop :=
  ∀ r, r < l.length → 0 < r → Desc p ((r-1)/2) → getE l ((r-1)/2) ≤ getE l r

/-- The descent chain of CPython `_siftup` from `pos`: follow the
smaller-child selection until a leaf. -/
def chainF : Nat → List Nat → Nat → List Nat
  | 0, _, pos => [pos]
  | fuel+1, l, pos =>
    if 2*pos+1 < l.length then pos :: chainF fuel l (sChild l pos) else [pos]

/-- The descent chain with sufficient fuel. -/
def chain (l : List Nat) (pos : Nat) : List Nat := chainF l.length l pos

/-- Shift values up along a list of positions: for consecutive positions
`a, b` set `l[a] := l[b]`, processing pairs left to right.  This is the
net effect of the descend-to-leaf loop of `_siftup`. -/
def shiftUp (l : List Nat) : List Nat → List Nat
  | [] => l
  | [_] => l
  | a :: b :: rest => shiftUp (l.set a (getE l b)) (b :: rest)

/-!
## The parking lot data model (src/cr1.py)
-/

/-- The vehicle class hierarchy of `cr1.py` (`Car`, `Bike`, `Truck`, each a
subclass of the abstract `Vehicle`), modelled as a closed variant type. -/
inductive Vehicle
  | Car
  | Bike
  | Truck
deriving DecidableEq

/-- `Vehicle.spots_needed`: `Car` and `Bike` need 1 spot, `Truck` needs 2. -/
def Vehicle.spots_needed : Vehicle → Nat
  | .Car => 1
  | .Bike => 1
  | .Truck => 2

/-- ASCII upper-casing of a string, modelling Python's `str.upper()` on the
ASCII fragment relevant to the recognised vehicle-kind names. -/
def pyUpper (s : String) : String := ⟨s.data.map Char.toUpper⟩

/-- The `VehicleType` enum lookup `VehicleType[vehicle_type.upper()]` of
`park_vehicle`'s backward-compatibility layer: the enum has exactly the
members `BIKE`, `CAR`, `TRUCK`; a missing member raises `KeyError`,
modelled by `none`. -/
def vehicleTypeLookup (s : String) : Option Vehicle :=
  if pyUpper s = "BIKE" then some Vehicle.Bike
  else if pyUpper s = "CAR" then some Vehicle.Car
  else if pyUpper s = "TRUCK" then some Vehicle.Truck
  else none

/-- The argument of `park_vehicle`, which accepts
`Union[str, Vehicle]`. -/
inductive VehicleArg
  | ofStr (s : String)
  | ofVehicle (v : Vehicle)

/-- `SpotAssignment` dataclass: a floor number and a spot number. -/
structure SpotAssignment where
  floor : Nat
  spot : Nat
deriving DecidableEq

instance : Inhabited SpotAssignment := ⟨⟨0, 0⟩⟩

/-- A `Floor`: its number, the min-heap list `available_spots` and the set
`available_set` (the `threading.Lock` has no sequential content). -/
structure Floor where
  floor_number : Nat
  available_spots : List Nat
  available_set : Finset Nat
deriving DecidableEq

instance : Inhabited Floor := ⟨⟨0, [], ∅⟩⟩

/-- The ≤-sorted list of a multiset of naturals (insertion sort on any
representative; permutation-invariant because the sorted list of a
multiset is unique). -/
def msSort (m : Multiset Nat) : List Nat :=
  Quot.lift (fun l => List.insertionSort (· ≤ ·) l)
    (fun l1 l2 h => by
      apply List.eq_of_perm_of_sorted
        (((List.perm_insertionSort _ l1).trans h).trans
          (List.perm_insertionSort _ l2).symm)
        (List.sorted_insertionSort _ l1) (List.sorted_insertionSort _ l2))
    m

/-- Python's `sorted` applied to a set of naturals: the unique ≤-sorted
list of its elements. -/
def pySorted (s : Finset Nat) : List Nat := msSort s.val

/-- `Floor.__init__(floor_number, spots_per_floor)`: spots `0, …, n-1` all
free; the list is heapified (`list(range(n))` is already a heap, but we
apply `heapify` exactly as the source does). -/
def Floor.init (floor_number spots_per_floor : Nat) : Floor :=
  { floor_number := floor_number
    available_spots := pyheapify (List.range spots_per_floor)
    available_set := Finset.range spots_per_floor }

/-- The first-adjacent-pair scan of `Floor._occupy_spots`:
`for i in range(len(s)-1): if s[i]+1 == s[i+1]: return s[i]`. -/
def findAdj : List Nat → Option Nat
  | [] => none
  | [_] => none
  | a :: b :: rest => if a + 1 = b then some a else findAdj (b :: rest)

/-- `Floor._occupy_spots(num_spots)`.  `num_spots = 1`: heap-pop the
smallest free spot.  Any other count: scan `sorted(available_set)` for the
first adjacent pair, remove `{start, start+1}` from the set and rebuild
the heap.  Failure (`-1` in Python) is modelled by `none` and, as in the
source, leaves the floor unmodified.  (`available_set.remove(spot)` is
modelled by `erase`; the popped spot is always a member in reachable
states, so no `KeyError` case arises.) -/
def Floor.occupy_spots (f : Floor) (num_spots : Nat) : Option Nat × Floor :=
  if num_spots = 1 then
    match pyheappop f.available_spots with
    | none => (none, f)
    | some (spot, rest) =>
      (some spot, { f with available_spots := rest
                           available_set := f.available_set.erase spot })
  else
    match findAdj (pySorted f.available_set) with
    | some start =>
      (some start,
        { f with available_set := f.available_set \ {start, start+1}
                 available_spots :=
                   pyheapify (pySorted (f.available_set \ {start, start+1})) })
    | none => (none, f)

/-- `Floor.free_spots(start, num_spots)`: add `range(start, start+num)` to
the set and rebuild the heap as `heapify(sorted(available_set))`. -/
def Floor.free_spots (f : Floor) (start num_spots : Nat) : Floor :=
  { f with available_set := f.available_set ∪ Finset.Ico start (start + num_spots)
           available_spots :=
             pyheapify (pySorted (f.available_set ∪ Finset.Ico start (start + num_spots))) }

/-- The `ParkingLot`: the floor list and the license-plate registry
`vehicle_map` (a Python dict, modelled as a key-unique association list in
insertion order). -/
structure ParkingLot where
  floors : List Floor
  vehicle_map : List (String × List SpotAssignment)
deriving DecidableEq

/-- `ParkingLot.__init__(num_floors, spots_per_floor)`. -/
def ParkingLot.init (num_floors spots_per_floor : Nat) : ParkingLot :=
  { floors := (List.range num_floors).map (fun i => Floor.init i spots_per_floor)
    vehicle_map := [] }

/-- The floor loop of `park_vehicle`: try each floor in order; the first
floor whose `_occupy_spots` succeeds determines the result.  Returns the
updated floor list, the succeeding floor's `floor_number` and the start
spot, or `none` if every floor fails. -/
def tryFloors (need : Nat) : List Floor → Option (List Floor × Nat × Nat)
  | [] => none
  | f :: rest =>
    match f.occupy_spots need with
    | (some start, f1) => some (f1 :: rest, f1.floor_number, start)
    | (none, f1) =>
      match tryFloors need rest with
      | some (rest1, fn, st) => some (f1 :: rest1, fn, st)
      | none => none

/-- `ParkingLot.park_vehicle(license_plate, vehicle_type)`: resolve the
vehicle kind (string lookup may fail), reject duplicate plates, then try
floors in ascending order and record the consecutive spot assignments for
the first success. -/
def ParkingLot.park_vehicle (pl : ParkingLot) (license_plate : String)
    (vehicle_type : VehicleArg) : Bool × ParkingLot :=
  let vehicle? : Option Vehicle :=
    match vehicle_type with
    | .ofStr s => vehicleTypeLookup s
    | .ofVehicle v => some v
  match vehicle? with
  | none => (false, pl)
  | some vehicle =>
    if (pl.vehicle_map.lookup license_plate).isSome then (false, pl)
    else
      match tryFloors vehicle.spots_needed pl.floors with
      | some (floors1, fn, start) =>
        (true, { floors := floors1
                 vehicle_map := pl.vehicle_map ++
                   [(license_plate,
                     (List.range vehicle.spots_needed).map
                       (fun i => SpotAssignment.mk fn (start + i)))] })
      | none => (false, pl)

/-- `ParkingLot.leave_vehicle(license_plate)`: `vehicle_map.pop` the plate
(`none` result leaves the map unchanged and returns failure; an empty
assignment list would also return failure, after the pop, exactly as
`if not spots` does), then free the recorded spots on the recorded floor.
An out-of-range floor index would raise `IndexError` in Python, modelled
by the outer `none`; it never occurs in reachable states. -/
def ParkingLot.leave_vehicle (pl : ParkingLot) (license_plate : String) :
    Option (Bool × ParkingLot) :=
  match pl.vehicle_map.lookup license_plate with
  | none => some (false, pl)
  | some spots =>
    let m1 := pl.vehicle_map.eraseP (fun e => e.1 == license_plate)
    match spots with
    | [] => some (false, { pl with vehicle_map := m1 })
    | a :: _ =>
      match pl.floors.get? a.floor with
      | none => none
      | some fl =>
        some (true,
          { floors := pl.floors.set a.floor (fl.free_spots a.spot spots.length)
            vehicle_map := m1 })

/-- `ParkingLot.get_available_spots_per_floor(floor_number)`: the heap
length for a valid index, `-1` otherwise. -/
def ParkingLot.get_available_spots_per_floor (pl : ParkingLot) (floor_number : Int) : Int :=
  if 0 ≤ floor_number ∧ floor_number < pl.floors.length then
    ((pl.floors.getD floor_number.toNat default).available_spots.length : Int)
  else -1

/-- `ParkingLot.is_full()`: every floor's heap list is empty. -/
def ParkingLot.is_full (pl : ParkingLot) : Bool :=
  pl.floors.all (fun f => f.available_spots.isEmpty)

/-- `ParkingLot.get_vehicle_location(license_plate)`. -/
def ParkingLot.get_vehicle_location (pl : ParkingLot) (license_plate : String) :
    List SpotAssignment :=
  (pl.vehicle_map.lookup license_plate).getD []

/-- The states reachable from a freshly constructed lot with `num_floors`
floors and `spots_per_floor` spots per floor by any sequence of
`park_vehicle` / `leave_vehicle` calls. -/
inductive Reachable (nf spf : Nat) : ParkingLot → Prop
  | init : Reachable nf spf (ParkingLot.init nf spf)
  | park {pl : ParkingLot} (p : String) (vt : VehicleArg) :
      Reachable nf spf pl → Reachable nf spf (pl.park_vehicle p vt).2
  | leave {pl pl' : ParkingLot} {b : Bool} (p : String) :
      Reachable nf spf pl → pl.leave_vehicle p = some (b, pl') →
      Reachable nf spf pl'

/-!
## Basic list and index lemmas
-/

theorem getE_nil (i : Nat) : getE [] i = 0 := by cases i <;> rfl

theorem getE_cons_zero (a : Nat) (l : List Nat) : getE (a :: l) 0 = a := rfl

theorem getE_cons_succ (a : Nat) (l : List Nat) (i : Nat) :
    getE (a :: l) (i+1) = getE l i := rfl

theorem getE_set_self : ∀ (l : List Nat) (i v : Nat), i < l.length →
    getE (l.set i v) i = v := by
  intro l
  induction l with
  | nil => intro i v h; simp at h
  | cons a t ih =>
    intro i v h
    cases i with
    | zero => rfl
    | succ i => exact ih i v (by simpa using h)

theorem getE_set_ne : ∀ (l : List Nat) (i j v : Nat), i ≠ j →
    getE (l.set i v) j = getE l j := by
  intro l
  induction l with
  | nil => intro i j v _; cases i <;> rfl
  | cons a t ih =>
    intro i j v hne
    cases i with
    | zero =>
      cases j with
      | zero => exact absurd rfl hne
      | succ j => rfl
    | succ i =>
      cases j with
      | zero => rfl
      | succ j => exact ih i j v (fun h => hne (by rw [h]))

theorem set_getE_self : ∀ (l : List Nat) (i : Nat), l.set i (getE l i) = l := by
  intro l
  induction l with
  | nil => intro i; cases i <;> rfl
  | cons a t ih =>
    intro i
    cases i with
    | zero => rfl
    | succ i => simpa [List.set, getE_cons_succ] using congrArg (a :: ·) (ih i)

theorem ms_set : ∀ (l : List Nat) (i v : Nat), i < l.length →
    ((l.set i v : List Nat) : Multiset Nat) + {getE l i} = (l : Multiset Nat) + {v} := by
  intro l
  induction l with
  | nil => intro i v h; simp at h
  | cons a t ih =>
    intro i v h
    cases i with
    | zero =>
      show ((v :: t : List Nat) : Multiset Nat) + {a} = ((a :: t : List Nat) : Multiset Nat) + {v}
      simp only [← Multiset.cons_coe, ← Multiset.singleton_add]
      abel
    | succ i =>
      have h2 : i < t.length := by simpa using h
      show ((a :: t.set i v : List Nat) : Multiset Nat) + {getE t i}
          = ((a :: t : List Nat) : Multiset Nat) + {v}
      simp only [← Multiset.cons_coe, ← Multiset.singleton_add]
      rw [add_assoc, add_assoc]
      congr 1
      simpa [← Multiset.singleton_add] using ih i v h2

theorem getE_take : ∀ (c : List Nat) (i m : Nat), i < m →
    getE (c.take m) i = getE c i := by
  intro c
  induction c with
  | nil => intro i m _; simp [getE]
  | cons a t ih =>
    intro i m him
    cases m with
    | zero => omega
    | succ m =>
      cases i with
      | zero => rfl
      | succ i =>
        show getE (t.take m) i = getE t i
        exact ih i m (by omega)

theorem getLastD_irrel : ∀ (c : List Nat), c ≠ [] → ∀ d1 d2, c.getLastD d1 = c.getLastD d2 := by
  intro c
  induction c with
  | nil => intro h; exact absurd rfl h
  | cons a t ih =>
    intro _ d1 d2
    cases t with
    | nil => rfl
    | cons b r =>
      show (b :: r).getLastD a = (b :: r).getLastD a
      rfl

theorem getLastD_take : ∀ (c : List Nat) (j : Nat), j < c.length →
    (c.take (j+1)).getLastD 0 = getE c j := by
  intro c
  induction c with
  | nil => intro j h; simp at h
  | cons a t ih =>
    intro j h
    cases j with
    | zero =>
      cases t with
      | nil => rfl
      | cons b r => rfl
    | succ j =>
      have h2 : j < t.length := by simpa using h
      show (a :: t.take (j+1)).getLastD 0 = getE t j
      have hne : t.take (j+1) ≠ [] := by
        cases t with
        | nil => simp at h2
        | cons b r => simp
      calc (a :: t.take (j+1)).getLastD 0 = (t.take (j+1)).getLastD a := by
            cases htk : t.take (j+1) with
            | nil => exact absurd htk hne
            | cons x xs => rfl
        _ = (t.take (j+1)).getLastD 0 := getLastD_irrel _ hne a 0
        _ = getE t j := ih j h2

theorem dropLast_take_succ : ∀ (c : List Nat) (j : Nat), j < c.length →
    (c.take (j+1)).dropLast = c.take j := by
  intro c j h
  rw [List.dropLast_eq_take]
  rw [List.take_take]
  congr 1
  rw [List.length_take]
  omega

/-!
## Lemmas about the index tree `Desc`
-/

theorem Desc.le : ∀ {i j : Nat}, Desc i j → i ≤ j := by
  intro i j h
  induction h with
  | refl => exact Nat.le_refl _
  | left _ ih => omega
  | right _ ih => omega

theorem Desc.trans : ∀ {i j k : Nat}, Desc i j → Desc j k → Desc i k := by
  intro i j k hij
  induction hij with
  | refl => exact fun h => h
  | left _ ih => exact fun h => .left (ih h)
  | right _ ih => exact fun h => .right (ih h)

theorem Desc.child_left (i : Nat) : Desc i (2*i+1) := .left (.refl _)

theorem Desc.child_right (i : Nat) : Desc i (2*i+2) := .right (.refl _)

theorem Desc.parent (i : Nat) (h : 0 < i) : Desc ((i-1)/2) i := by
  have h2 : i = 2*((i-1)/2)+1 ∨ i = 2*((i-1)/2)+2 := by omega
  rcases h2 with h2 | h2
  · conv => rhs; rw [h2]
    exact Desc.child_left _
  · conv => rhs; rw [h2]
    exact Desc.child_right _

theorem Desc.root (i : Nat) : Desc 0 i := by
  induction i using Nat.strong_induction_on with
  | _ i ih =>
    rcases Nat.eq_zero_or_pos i with h | h
    · rw [h]; exact .refl 0
    · exact (ih ((i-1)/2) (by omega)).trans (Desc.parent i h)

theorem Desc.parent_of : ∀ {i r : Nat}, Desc i r → r ≠ i → Desc i ((r-1)/2) := by
  intro i r h
  induction h with
  | refl => intro hne; exact absurd rfl hne
  | @left i k h1 ih =>
    intro _
    by_cases hr : k = 2*i+1
    · have h2 : (k-1)/2 = i := by omega
      rw [h2]; exact .refl _
    · exact .left (ih hr)
  | @right i k h1 ih =>
    intro _
    by_cases hr : k = 2*i+2
    · have h2 : (k-1)/2 = i := by omega
      rw [h2]; exact .refl _
    · exact .right (ih hr)

theorem Desc.cases_children : ∀ {p q : Nat}, Desc p q →
    q = p ∨ Desc (2*p+1) q ∨ Desc (2*p+2) q := by
  intro p q h
  cases h with
  | refl => exact Or.inl rfl
  | left h1 => exact Or.inr (Or.inl h1)
  | right h1 => exact Or.inr (Or.inr h1)

/-!
## Lemmas about `sChild` and the descent chain
-/

theorem sChild_cases (l : List Nat) (p : Nat) :
    sChild l p = 2*p+1 ∨ sChild l p = 2*p+2 := by
  unfold sChild
  by_cases h : 2*p+2 < l.length ∧ ¬ (getE l (2*p+1) < getE l (2*p+2))
  · rw [if_pos h]; exact Or.inr rfl
  · rw [if_neg h]; exact Or.inl rfl

theorem sChild_gt (l : List Nat) (p : Nat) : p < sChild l p := by
  rcases sChild_cases l p with h | h <;> omega

theorem sChild_lt_length (l : List Nat) (p : Nat) (h : 2*p+1 < l.length) :
    sChild l p < l.length := by
  unfold sChild
  by_cases h2 : 2*p+2 < l.length ∧ ¬ (getE l (2*p+1) < getE l (2*p+2))
  · rw [if_pos h2]; exact h2.1
  · rw [if_neg h2]; exact h

theorem sChild_parent (l : List Nat) (p : Nat) : (sChild l p - 1)/2 = p := by
  rcases sChild_cases l p with h | h <;> (rw [h]; omega)

theorem Desc.child_sChild (l : List Nat) (p : Nat) : Desc p (sChild l p) := by
  rcases sChild_cases l p with h | h <;> rw [h]
  · exact Desc.child_left _
  · exact Desc.child_right _

theorem sChild_min (l : List Nat) (p : Nat) (h : 2*p+1 < l.length) :
    getE l (sChild l p) ≤ getE l (2*p+1) ∧
      (2*p+2 < l.length → getE l (sChild l p) ≤ getE l (2*p+2)) := by
  unfold sChild
  by_cases h2 : 2*p+2 < l.length ∧ ¬ (getE l (2*p+1) < getE l (2*p+2))
  · rw [if_pos h2]
    exact ⟨by omega, fun _ => Nat.le_refl _⟩
  · rw [if_neg h2]
    refine ⟨Nat.le_refl _, fun h3 => ?_⟩
    rcases Decidable.not_and_iff_or_not.mp h2 with h4 | h4
    · exact absurd h3 h4
    · have := Decidable.not_not.mp h4
      omega

theorem sChild_set_lt (l : List Nat) (p q v : Nat) (h : q < p) :
    sChild (l.set q v) p = sChild l p := by
  unfold sChild
  rw [List.length_set, getE_set_ne l q (2*p+1) v (by omega),
    getE_set_ne l q (2*p+2) v (by omega)]

theorem chainF_ne_nil (f : Nat) (l : List Nat) (p : Nat) : chainF f l p ≠ [] := by
  cases f with
  | zero => simp [chainF]
  | succ f =>
    simp only [chainF]
    split <;> simp

theorem chainF_headD (f : Nat) (l : List Nat) (p : Nat) : (chainF f l p).headD 0 = p := by
  cases f with
  | zero => rfl
  | succ f =>
    simp only [chainF]
    split <;> rfl

theorem chainF_mem_ge : ∀ (f : Nat) (l : List Nat) (p x : Nat), x ∈ chainF f l p → p ≤ x := by
  intro f
  induction f with
  | zero =>
    intro l p x hx
    simp [chainF] at hx
    omega
  | succ f ih =>
    intro l p x hx
    simp only [chainF] at hx
    split at hx
    · rcases List.mem_cons.mp hx with h | h
      · omega
      · have := ih l (sChild l p) x h
        have := sChild_gt l p
        omega
    · simp at hx; omega

theorem chainF_sorted : ∀ (f : Nat) (l : List Nat) (p : Nat),
    (chainF f l p).Sorted (· < ·) := by
  intro f
  induction f with
  | zero => intro l p; simp [chainF]
  | succ f ih =>
    intro l p
    simp only [chainF]
    split
    · refine List.sorted_cons.mpr ⟨?_, ih l (sChild l p)⟩
      intro x hx
      have := chainF_mem_ge f l (sChild l p) x hx
      have := sChild_gt l p
      omega
    · simp

theorem chainF_mem_lt : ∀ (f : Nat) (l : List Nat) (p : Nat), p < l.length →
    ∀ x ∈ chainF f l p, x < l.length := by
  intro f
  induction f with
  | zero =>
    intro l p hp x hx
    simp [chainF] at hx
    omega
  | succ f ih =>
    intro l p hp x hx
    simp only [chainF] at hx
    split at hx
    · rcases List.mem_cons.mp hx with h | h
      · omega
      · exact ih l (sChild l p) (sChild_lt_length l p (by assumption)) x h
    · simp at hx; omega

theorem chainF_desc : ∀ (f : Nat) (l : List Nat) (p : Nat),
    ∀ x ∈ chainF f l p, Desc p x := by
  intro f
  induction f with
  | zero =>
    intro l p x hx
    simp [chainF] at hx
    rw [hx]; exact .refl _
  | succ f ih =>
    intro l p x hx
    simp only [chainF] at hx
    split at hx
    · rcases List.mem_cons.mp hx with h | h
      · rw [h]; exact .refl _
      · exact (Desc.child_sChild l p).trans (ih l (sChild l p) x h)
    · simp at hx
      rw [hx]; exact .refl _

theorem headD_eq_getE (c : List Nat) (h : c ≠ []) : c.headD 0 = getE c 0 := by
  cases c with
  | nil => exact absurd rfl h
  | cons a t => rfl

theorem chainF_link : ∀ (f : Nat) (l : List Nat) (p i : Nat),
    i + 1 < (chainF f l p).length →
    2 * getE (chainF f l p) i + 1 < l.length ∧
      getE (chainF f l p) (i+1) = sChild l (getE (chainF f l p) i) := by
  intro f
  induction f with
  | zero =>
    intro l p i hi
    simp [chainF] at hi
  | succ f ih =>
    intro l p i hi
    simp only [chainF] at hi ⊢
    by_cases hg : 2*p+1 < l.length
    · rw [if_pos hg] at hi ⊢
      cases i with
      | zero =>
        refine ⟨?_, ?_⟩
        · rw [getE_cons_zero]; exact hg
        · rw [getE_cons_succ, getE_cons_zero, ← headD_eq_getE _ (chainF_ne_nil f l _),
            chainF_headD]
      | succ i =>
        have h2 : i + 1 < (chainF f l (sChild l p)).length := by
          simpa using hi
        have h3 := ih l (sChild l p) i h2
        rw [getE_cons_succ, getE_cons_succ]
        exact h3
    · rw [if_neg hg] at hi
      simp at hi

theorem chainF_stable : ∀ (f1 f2 : Nat) (l : List Nat) (p : Nat),
    l.length ≤ p + f1 → l.length ≤ p + f2 → chainF f1 l p = chainF f2 l p := by
  intro f1
  induction f1 with
  | zero =>
    intro f2 l p h1 _
    cases f2 with
    | zero => rfl
    | succ f2 =>
      simp only [chainF]
      rw [if_neg (by omega)]
  | succ f1 ih =>
    intro f2 l p h1 h2
    cases f2 with
    | zero =>
      simp only [chainF]
      rw [if_neg (by omega)]
    | succ f2 =>
      simp only [chainF]
      by_cases hg : 2*p+1 < l.length
      · rw [if_pos hg, if_pos hg]
        have hgt := sChild_gt l p
        rw [ih f2 l (sChild l p) (by omega) (by omega)]
      · rw [if_neg hg, if_neg hg]

theorem chain_eq (l : List Nat) (p : Nat) :
    chain l p = if 2*p+1 < l.length then p :: chain l (sChild l p) else [p] := by
  by_cases hg : 2*p+1 < l.length
  · rw [if_pos hg]
    show chainF l.length l p = p :: chainF l.length l (sChild l p)
    cases hn : l.length with
    | zero => omega
    | succ n =>
      have h1 : chainF (n+1) l p = p :: chainF n l (sChild l p) := by
        simp only [chainF]
        rw [if_pos (by omega)]
      rw [h1]
      have hgt := sChild_gt l p
      rw [chainF_stable n (n+1) l (sChild l p) (by omega) (by omega)]
  · rw [if_neg hg]
    show chainF l.length l p = [p]
    cases hn : l.length with
    | zero => rfl
    | succ n =>
      simp only [chainF]
      rw [if_neg (by omega)]

theorem chainF_set_lt : ∀ (f : Nat) (l : List Nat) (p q v : Nat), q < p →
    chainF f (l.set q v) p = chainF f l p := by
  intro f
  induction f with
  | zero => intro l p q v _; rfl
  | succ f ih =>
    intro l p q v hqp
    simp only [chainF, List.length_set]
    by_cases hg : 2*p+1 < l.length
    · rw [if_pos hg, if_pos hg, sChild_set_lt l p q v hqp]
      have hgt := sChild_gt l p
      rw [ih l (sChild l p) q v (by omega)]
    · rw [if_neg hg, if_neg hg]

theorem chain_set_lt (l : List Nat) (p q v : Nat) (h : q < p) :
    chain (l.set q v) p = chain l p := by
  unfold chain
  rw [List.length_set, chainF_set_lt l.length l p q v h]

theorem chain_ne_nil (l : List Nat) (p : Nat) : chain l p ≠ [] := chainF_ne_nil _ _ _

theorem chain_headD (l : List Nat) (p : Nat) : (chain l p).headD 0 = p := chainF_headD _ _ _

theorem chain_getE_zero (l : List Nat) (p : Nat) : getE (chain l p) 0 = p := by
  rw [← headD_eq_getE _ (chain_ne_nil l p), chain_headD]

theorem chain_sorted (l : List Nat) (p : Nat) : (chain l p).Sorted (· < ·) :=
  chainF_sorted _ _ _

theorem chain_nodup (l : List Nat) (p : Nat) : (chain l p).Nodup :=
  (chain_sorted l p).nodup

theorem chain_mem_lt (l : List Nat) (p : Nat) (hp : p < l.length) :
    ∀ x ∈ chain l p, x < l.length := chainF_mem_lt _ _ _ hp

theorem chain_desc (l : List Nat) (p : Nat) : ∀ x ∈ chain l p, Desc p x :=
  chainF_desc _ _ _

theorem chain_link (l : List Nat) (p i : Nat) (hi : i + 1 < (chain l p).length) :
    2 * getE (chain l p) i + 1 < l.length ∧
      getE (chain l p) (i+1) = sChild l (getE (chain l p) i) := chainF_link _ _ _ _ hi

/-!
## Lemmas about `shiftUp`
-/

theorem getE_mem : ∀ (c : List Nat) (i : Nat), i < c.length → getE c i ∈ c := by
  intro c
  induction c with
  | nil => intro i h; simp at h
  | cons a t ih =>
    intro i h
    cases i with
    | zero => exact List.mem_cons_self _ _
    | succ i =>
      rw [getE_cons_succ]
      exact List.mem_cons_of_mem _ (ih i (by simpa using h))

theorem mem_of_mem_dropLast {x : Nat} {c : List Nat} (h : x ∈ c.dropLast) : x ∈ c := by
  rw [List.dropLast_eq_take] at h
  exact List.take_subset _ _ h

theorem shiftUp_length : ∀ (c l : List Nat), (shiftUp l c).length = l.length := by
  intro c
  induction c with
  | nil => intro l; rfl
  | cons a t ih =>
    intro l
    cases t with
    | nil => rfl
    | cons b r =>
      show (shiftUp (l.set a (getE l b)) (b :: r)).length = l.length
      rw [ih (l.set a (getE l b)), List.length_set]

theorem shiftUp_getE_off : ∀ (c l : List Nat) (j : Nat), j ∉ c.dropLast →
    getE (shiftUp l c) j = getE l j := by
  intro c
  induction c with
  | nil => intro l j _; rfl
  | cons a t ih =>
    intro l j hj
    cases t with
    | nil => rfl
    | cons b r =>
      rw [List.dropLast_cons₂] at hj
      have hja : j ≠ a := fun h => hj (by rw [h]; exact List.mem_cons_self _ _)
      have hjr : j ∉ (b :: r).dropLast := fun h => hj (List.mem_cons_of_mem _ h)
      show getE (shiftUp (l.set a (getE l b)) (b :: r)) j = getE l j
      rw [ih (l.set a (getE l b)) j hjr, getE_set_ne l a j _ (fun h => hja h.symm)]

theorem shiftUp_getE_link : ∀ (c l : List Nat), c.Nodup → (∀ x ∈ c, x < l.length) →
    ∀ i, i + 1 < c.length → getE (shiftUp l c) (getE c i) = getE l (getE c (i+1)) := by
  intro c
  induction c with
  | nil => intro l _ _ i hi; simp at hi
  | cons a t ih =>
    intro l hnd hb i hi
    cases t with
    | nil => simp at hi
    | cons b r =>
      show getE (shiftUp (l.set a (getE l b)) (b :: r)) (getE (a :: b :: r) i)
          = getE l (getE (a :: b :: r) (i+1))
      cases i with
      | zero =>
        rw [getE_cons_zero, getE_cons_succ, getE_cons_zero]
        have hab : a ∉ (b :: r) := (List.nodup_cons.mp hnd).1
        have hoff : a ∉ (b :: r).dropLast := fun h => hab (mem_of_mem_dropLast h)
        rw [shiftUp_getE_off (b :: r) _ a hoff,
          getE_set_self l a _ (hb a (List.mem_cons_self _ _))]
      | succ i =>
        rw [getE_cons_succ, getE_cons_succ]
        have hi2 : i + 1 < (b :: r).length := by simpa using hi
        have hnd2 : (b :: r).Nodup := (List.nodup_cons.mp hnd).2
        have hb2 : ∀ x ∈ (b :: r), x < (l.set a (getE l b)).length := by
          intro x hx
          rw [List.length_set]
          exact hb x (List.mem_cons_of_mem _ hx)
        rw [ih (l.set a (getE l b)) hnd2 hb2 i hi2]
        have hmem : getE (b :: r) (i+1) ∈ (b :: r) := getE_mem _ _ hi2
        have hne : a ≠ getE (b :: r) (i+1) := by
          intro h
          exact (List.nodup_cons.mp hnd).1 (h ▸ hmem)
        rw [getE_set_ne l a _ _ hne]

theorem shiftUp_append : ∀ (d l : List Nat) (z : Nat), d ≠ [] → z ∉ d.dropLast →
    shiftUp l (d ++ [z]) = (shiftUp l d).set (d.getLastD 0) (getE l z) := by
  intro d
  induction d with
  | nil => intro l z h _; exact absurd rfl h
  | cons a t ih =>
    intro l z _ hz
    cases t with
    | nil => rfl
    | cons b r =>
      rw [List.dropLast_cons₂] at hz
      have hza : z ≠ a := fun h => hz (by rw [h]; exact List.mem_cons_self _ _)
      have hzr : z ∉ (b :: r).dropLast := fun h => hz (List.mem_cons_of_mem _ h)
      show shiftUp (l.set a (getE l b)) ((b :: r) ++ [z])
          = (shiftUp (l.set a (getE l b)) (b :: r)).set ((a :: b :: r).getLastD 0) (getE l z)
      rw [ih (l.set a (getE l b)) z (by simp) hzr]
      rw [getE_set_ne l a z _ (fun h => hza h.symm)]
      have hlast : (a :: b :: r).getLastD 0 = (b :: r).getLastD 0 := by
        rw [List.getLastD_cons]
        exact getLastD_irrel (b :: r) (by simp) a 0
      rw [hlast]

theorem shiftUp_ms : ∀ (c l : List Nat) (v : Nat), c ≠ [] → c.Nodup →
    (∀ x ∈ c, x < l.length) →
    (((shiftUp l c).set (c.getLastD 0) v : List Nat) : Multiset Nat) + {getE l (c.headD 0)}
      = (l : Multiset Nat) + {v} := by
  intro c
  induction c with
  | nil => intro l v h _ _; exact absurd rfl h
  | cons a t ih =>
    intro l v _ hnd hb
    cases t with
    | nil =>
      show ((l.set a v : List Nat) : Multiset Nat) + {getE l a} = (l : Multiset Nat) + {v}
      exact ms_set l a v (hb a (List.mem_cons_self _ _))
    | cons b r =>
      have hblen : b < l.length := hb b (List.mem_cons_of_mem _ (List.mem_cons_self _ _))
      have halen : a < l.length := hb a (List.mem_cons_self _ _)
      have hba : b ≠ a := by
        intro h
        exact (List.nodup_cons.mp hnd).1 (h ▸ List.mem_cons_self b r)
      have h1 := ih (l.set a (getE l b)) v (by simp) (List.nodup_cons.mp hnd).2
        (by intro x hx; rw [List.length_set]; exact hb x (List.mem_cons_of_mem _ hx))
      rw [List.headD_cons, getE_set_ne l a b _ (fun h => hba h.symm)] at h1
      have h2 := ms_set l a (getE l b) halen
      show (((shiftUp (l.set a (getE l b)) (b :: r)).set ((a :: b :: r).getLastD 0) v
          : List Nat) : Multiset Nat) + {getE l a} = (l : Multiset Nat) + {v}
      have hlast : (a :: b :: r).getLastD 0 = (b :: r).getLastD 0 := by
        rw [List.getLastD_cons]
        exact getLastD_irrel (b :: r) (by simp) a 0
      rw [hlast]
      have h3 : (((shiftUp (l.set a (getE l b)) (b :: r)).set ((b :: r).getLastD 0) v
            : List Nat) : Multiset Nat) + {getE l a} + {getE l b}
          = ((l : Multiset Nat) + {v}) + {getE l b} :=
        calc (((shiftUp (l.set a (getE l b)) (b :: r)).set ((b :: r).getLastD 0) v
              : List Nat) : Multiset Nat) + {getE l a} + {getE l b}
            = ((l.set a (getE l b) : List Nat) : Multiset Nat) + {v} + {getE l a} := by
              rw [add_right_comm, h1]
          _ = ((l.set a (getE l b) : List Nat) : Multiset Nat) + {getE l a} + {v} := by
              rw [add_right_comm]
          _ = (l : Multiset Nat) + {getE l b} + {v} := by rw [h2]
          _ = ((l : Multiset Nat) + {v}) + {getE l b} := by rw [add_right_comm]
      exact add_right_cancel h3

/-!
## Characterisation of the `_siftup` descent loop
-/

theorem siftupLoop_eq : ∀ (f : Nat) (l : List Nat) (p : Nat), l.length ≤ p + f →
    siftupLoop f l p = (shiftUp l (chain l p), (chain l p).getLastD 0) := by
  intro f
  induction f with
  | zero =>
    intro l p hf
    have hg : ¬ 2*p+1 < l.length := by omega
    rw [chain_eq, if_neg hg]
    rfl
  | succ f ih =>
    intro l p hf
    by_cases hg : 2*p+1 < l.length
    · show (if 2*p+1 < l.length then
          siftupLoop f (l.set p (getE l (sChild l p))) (sChild l p) else (l, p)) = _
      rw [if_pos hg]
      have hgt := sChild_gt l p
      have ih2 := ih (l.set p (getE l (sChild l p))) (sChild l p)
        (by rw [List.length_set]; omega)
      rw [ih2, chain_set_lt l (sChild l p) p _ hgt]
      rw [chain_eq l p, if_pos hg]
      obtain ⟨tl, htl⟩ : ∃ tl, chain l (sChild l p) = sChild l p :: tl := by
        cases hc : chain l (sChild l p) with
        | nil => exact absurd hc (chain_ne_nil _ _)
        | cons x xs =>
          have hh := chain_headD l (sChild l p)
          rw [hc] at hh
          simp at hh
          exact ⟨xs, by rw [hh]⟩
      rw [htl]
      have h1 : shiftUp (l.set p (getE l (sChild l p))) (sChild l p :: tl)
          = shiftUp l (p :: sChild l p :: tl) := rfl
      have h2 : (sChild l p :: tl).getLastD 0 = (p :: sChild l p :: tl).getLastD 0 := by
        rw [List.getLastD_cons 0 p (sChild l p :: tl)]
        exact (getLastD_irrel (sChild l p :: tl) (by simp) p 0).symm
      rw [h1, h2]
    · show (if 2*p+1 < l.length then
          siftupLoop f (l.set p (getE l (sChild l p))) (sChild l p) else (l, p)) = _
      rw [if_neg hg, chain_eq, if_neg hg]
      rfl

/-!
## Helper lemmas for the ascent characterisation
-/

theorem sorted_getE_strict : ∀ (c : List Nat), c.Sorted (· < ·) →
    ∀ i1 i2, i1 < i2 → i2 < c.length → getE c i1 < getE c i2 := by
  intro c
  induction c with
  | nil => intro _ i1 i2 _ h2; simp at h2
  | cons a t ih =>
    intro hs i1 i2 h12 h2
    rcases List.sorted_cons.mp hs with ⟨ha, hst⟩
    cases i1 with
    | zero =>
      cases i2 with
      | zero => omega
      | succ i2 =>
        rw [getE_cons_zero, getE_cons_succ]
        exact ha _ (getE_mem t i2 (by simpa using h2))
    | succ i1 =>
      cases i2 with
      | zero => omega
      | succ i2 =>
        rw [getE_cons_succ, getE_cons_succ]
        exact ih hst i1 i2 (by omega) (by simpa using h2)

theorem mem_take_getE : ∀ (c : List Nat) (m x : Nat), x ∈ c.take m →
    ∃ idx, idx < m ∧ idx < c.length ∧ getE c idx = x := by
  intro c
  induction c with
  | nil => intro m x hx; simp at hx
  | cons a t ih =>
    intro m x hx
    cases m with
    | zero => simp at hx
    | succ m =>
      rcases List.mem_cons.mp hx with h | h
      · exact ⟨0, by omega, by simp, h.symm⟩
      · obtain ⟨idx, h1, h2, h3⟩ := ih m x h
        exact ⟨idx+1, by omega, by simpa using h2, h3⟩

theorem sorted_take_lt (c : List Nat) (hs : c.Sorted (· < ·)) (m1 m2 : Nat)
    (h12 : m1 ≤ m2) (h2 : m2 < c.length) : ∀ x ∈ c.take m1, x < getE c m2 := by
  intro x hx
  obtain ⟨idx, hi1, _, hi3⟩ := mem_take_getE c m1 x hx
  rw [← hi3]
  exact sorted_getE_strict c hs idx m2 (by omega) h2

theorem take_succ_getE : ∀ (c : List Nat) (m : Nat), m < c.length →
    c.take (m+1) = c.take m ++ [getE c m] := by
  intro c
  induction c with
  | nil => intro m h; simp at h
  | cons a t ih =>
    intro m h
    cases m with
    | zero => rfl
    | succ m =>
      show a :: t.take (m+1) = (a :: t.take m) ++ [getE t m]
      rw [ih m (by simpa using h)]
      rfl

theorem getLastD_eq_getE (c : List Nat) (h : c ≠ []) :
    c.getLastD 0 = getE c (c.length - 1) := by
  have hl : 0 < c.length := List.length_pos.mpr h
  have h2 := getLastD_take c (c.length - 1) (by omega)
  have h3 : c.length - 1 + 1 = c.length := by omega
  rw [h3, List.take_length] at h2
  exact h2

theorem chain_getE_lower (l : List Nat) (p : Nat) :
    ∀ m, m < (chain l p).length → p + m ≤ getE (chain l p) m := by
  intro m
  induction m with
  | zero =>
    intro _
    rw [chain_getE_zero]
    omega
  | succ m ih =>
    intro h
    have h1 := ih (by omega)
    have h2 := sorted_getE_strict (chain l p) (chain_sorted l p) m (m+1) (by omega) h
    omega

/-- The `_siftdown` ascent loop, entered at chain index `i` in the state
left by the descent (chain positions `0..i` holding their successor's old
value, the rest of the list untouched): it walks back up the chain and
stops at the first index `j` (from below) whose old value is at most
`newitem`, restoring the chain values below `j`. -/
theorem siftdownLoop_inv : ∀ (i : Nat) (l : List Nat) (p : Nat) (fuel : Nat),
    p < l.length → i ≤ fuel → i + 1 < (chain l p).length →
    ∃ j, j ≤ i ∧
      (∀ m, j < m → m ≤ i → getE l p < getE l (getE (chain l p) m)) ∧
      (0 < j → getE l (getE (chain l p) j) ≤ getE l p) ∧
      siftdownLoop fuel (shiftUp l ((chain l p).take (i+2))) p (getE (chain l p) i) (getE l p)
        = (shiftUp l ((chain l p).take (j+2)), getE (chain l p) j) := by
  intro i
  induction i with
  | zero =>
    intro l p fuel hp _ _
    refine ⟨0, Nat.le_refl 0, by intro m h1 h2; omega, by intro h; omega, ?_⟩
    rw [chain_getE_zero]
    cases fuel with
    | zero => rfl
    | succ g =>
      simp only [siftdownLoop]
      rw [if_neg (lt_irrefl p)]
  | succ i ih =>
    intro l p fuel hp hfuel hlen
    have hc_sorted := chain_sorted l p
    have hlen1 : i + 1 < (chain l p).length := by omega
    have hpos_gt : p < getE (chain l p) (i+1) := by
      have h0 := sorted_getE_strict _ hc_sorted 0 (i+1) (by omega) (by omega)
      rw [chain_getE_zero] at h0
      exact h0
    have hlink := chain_link l p i hlen1
    have hparent : (getE (chain l p) (i+1) - 1)/2 = getE (chain l p) i := by
      rw [hlink.2, sChild_parent]
    cases fuel with
    | zero => omega
    | succ g =>
      have hdlen : ((chain l p).take (i+3)).length = i+3 := by
        rw [List.length_take]
        omega
      have hdnodup : ((chain l p).take (i+3)).Nodup :=
        (List.take_sublist _ _).nodup (chain_nodup l p)
      have hdmem : ∀ x ∈ (chain l p).take (i+3), x < l.length := fun x hx =>
        chain_mem_lt l p hp x (List.take_subset _ _ hx)
      have hidx : i + 1 < ((chain l p).take (i+3)).length := by
        rw [hdlen]
        omega
      have hpar_val : getE (shiftUp l ((chain l p).take (i+3))) (getE (chain l p) i)
          = getE l (getE (chain l p) (i+1)) := by
        have h1 := shiftUp_getE_link ((chain l p).take (i+3)) l hdnodup hdmem i hidx
        rw [getE_take _ i (i+3) (by omega), getE_take _ (i+1) (i+3) (by omega)] at h1
        exact h1
      simp only [siftdownLoop]
      rw [if_pos hpos_gt, hparent, hpar_val]
      by_cases hcond : getE l p < getE l (getE (chain l p) (i+1))
      · rw [if_pos hcond]
        have htk2ne : (chain l p).take (i+2) ≠ [] := by
          have h2 : ((chain l p).take (i+2)).length = i+2 := by
            rw [List.length_take]
            omega
          intro hnil
          rw [hnil] at h2
          simp at h2
        have hznotin : getE (chain l p) (i+2) ∉ ((chain l p).take (i+2)).dropLast := by
          rw [dropLast_take_succ _ (i+1) (by omega)]
          intro hmem
          exact absurd (sorted_take_lt _ hc_sorted (i+1) (i+2) (by omega) (by omega) _ hmem)
            (lt_irrefl _)
        have happ : shiftUp l ((chain l p).take (i+3))
            = (shiftUp l ((chain l p).take (i+2))).set (getE (chain l p) (i+1))
                (getE l (getE (chain l p) (i+2))) := by
          rw [take_succ_getE _ (i+2) (by omega)]
          rw [shiftUp_append _ l _ htk2ne hznotin]
          rw [getLastD_take _ (i+1) (by omega)]
        have hoffE : getE (shiftUp l ((chain l p).take (i+2))) (getE (chain l p) (i+1))
            = getE l (getE (chain l p) (i+1)) := by
          apply shiftUp_getE_off
          rw [dropLast_take_succ _ (i+1) (by omega)]
          intro hmem
          exact absurd (sorted_take_lt _ hc_sorted (i+1) (i+1) (Nat.le_refl _) (by omega) _ hmem)
            (lt_irrefl _)
        have hsetid : (shiftUp l ((chain l p).take (i+2))).set (getE (chain l p) (i+1))
              (getE l (getE (chain l p) (i+1))) = shiftUp l ((chain l p).take (i+2)) := by
          rw [← hoffE, set_getE_self]
        rw [happ, List.set_set, hsetid]
        obtain ⟨j, hj1, hj2, hj3, hj4⟩ := ih l p g hp (by omega) hlen1
        refine ⟨j, by omega, ?_, hj3, hj4⟩
        intro m h1 h2
        by_cases hm : m ≤ i
        · exact hj2 m h1 hm
        · have hmi : m = i+1 := by omega
          rw [hmi]
          exact hcond
      · rw [if_neg hcond]
        refine ⟨i+1, Nat.le_refl _, by intro m h1 h2; omega, by intro _; omega, rfl⟩

theorem siftdownLoop_pos_fuel (fuel : Nat) (L : List Nat) (s pos ni : Nat) (hf : 0 < fuel) :
    siftdownLoop fuel L s pos ni =
      if s < pos then
        if ni < getE L ((pos-1)/2) then
          siftdownLoop (fuel-1) (L.set pos (getE L ((pos-1)/2))) s ((pos-1)/2) ni
        else (L, pos)
      else (L, pos) := by
  cases fuel with
  | zero => omega
  | succ g => rfl


theorem pysiftdown_eq (L : List Nat) (s pos : Nat) :
    pysiftdown L s pos = (siftdownLoop pos L s pos (getE L pos)).1.set
      (siftdownLoop pos L s pos (getE L pos)).2 (getE L pos) := rfl

theorem pysiftup_eq (l : List Nat) (pos : Nat) :
    pysiftup l pos = pysiftdown ((siftupLoop l.length l pos).1.set
      (siftupLoop l.length l pos).2 (getE l pos)) pos (siftupLoop l.length l pos).2 := rfl

/-- Closed form of CPython `_siftup`: writing `c` for the smaller-child
descent chain from `p` and `w = l[p]`, the result is `l` with the chain
values `c[1..j]` shifted up one chain position and `w` placed at `c[j]`,
where `j` is the stopping index of the ascent (every chain value strictly
below `c[j]` on the chain is `> w`, and `l[c[j]] ≤ w` unless `j = 0`). -/
theorem pysiftup_closed (l : List Nat) (p : Nat) (hp : p < l.length) :
    ∃ j, j < (chain l p).length ∧
      (∀ m, j < m → m < (chain l p).length → getE l p < getE l (getE (chain l p) m)) ∧
      (0 < j → getE l (getE (chain l p) j) ≤ getE l p) ∧
      pysiftup l p
        = (shiftUp l ((chain l p).take (j+1))).set (getE (chain l p) j) (getE l p) := by
  have hdesc := siftupLoop_eq l.length l p (by omega)
  have hcne := chain_ne_nil l p
  have hclen : 0 < (chain l p).length := List.length_pos.mpr hcne
  have hc_sorted := chain_sorted l p
  rcases Nat.lt_or_ge (chain l p).length 2 with hsmall | hbig
  · -- the chain is a single node: the descent did nothing and the loop exits at once
    have h1 : (chain l p).length = 1 := by omega
    obtain ⟨a, ha⟩ : ∃ a, chain l p = [a] := by
      cases hc : chain l p with
      | nil => exact absurd hc hcne
      | cons x xs =>
        rw [hc] at h1
        simp at h1
        exact ⟨x, by rw [h1]⟩
    have hap : a = p := by
      have h2 := chain_getE_zero l p
      rw [ha] at h2
      exact h2
    rw [hap] at ha
    refine ⟨0, by omega, ?_, by intro h; omega, ?_⟩
    · intro m hm1 hm2
      rw [h1] at hm2
      omega
    · rw [pysiftup_eq, hdesc, ha]
      show pysiftdown ((shiftUp l [p]).set (([p] : List Nat).getLastD 0) (getE l p)) p
          (([p] : List Nat).getLastD 0) = _
      have hE : (([p] : List Nat)).getLastD 0 = p := rfl
      have hsh : shiftUp l [p] = l := rfl
      rw [hE, hsh, set_getE_self, pysiftdown_eq]
      have hloop : siftdownLoop p l p p (getE l p) = (l, p) := by
        cases p with
        | zero => rfl
        | succ q =>
          simp only [siftdownLoop]
          rw [if_neg (lt_irrefl _)]
      rw [hloop]
      show l.set p (getE l p) = _
      rw [set_getE_self]
      exact (set_getE_self l p).symm
  · -- chain of length at least 2: one explicit first iteration, then the loop invariant
    obtain ⟨k2, hk2⟩ : ∃ k2, (chain l p).length = k2 + 2 := ⟨(chain l p).length - 2, by omega⟩
    have hlast : (chain l p).getLastD 0 = getE (chain l p) (k2+1) := by
      have h2 := getLastD_eq_getE _ hcne
      rw [hk2] at h2
      have h3 : k2 + 2 - 1 = k2 + 1 := by omega
      rw [h3] at h2
      exact h2
    have hlastlt : getE (chain l p) (k2+1) < l.length :=
      chain_mem_lt l p hp _ (getE_mem _ _ (by omega))
    have hwlt : p < getE (chain l p) (k2+1) := by
      have h0 := sorted_getE_strict _ hc_sorted 0 (k2+1) (by omega) (by omega)
      rw [chain_getE_zero] at h0
      exact h0
    have hfull : (chain l p).take (k2+2) = chain l p := by
      rw [← hk2]
      exact List.take_length _
    have hlastoff : getE (chain l p) (k2+1) ∉ (chain l p).dropLast := by
      rw [List.dropLast_eq_take, hk2]
      have h3 : k2 + 2 - 1 = k2 + 1 := by omega
      rw [h3]
      intro hmem
      exact absurd (sorted_take_lt _ hc_sorted (k2+1) (k2+1) (Nat.le_refl _) (by omega) _ hmem)
        (lt_irrefl _)
    have hshlast : getE (shiftUp l (chain l p)) (getE (chain l p) (k2+1))
        = getE l (getE (chain l p) (k2+1)) := shiftUp_getE_off _ _ _ hlastoff
    have hnewitem : getE ((shiftUp l (chain l p)).set (getE (chain l p) (k2+1)) (getE l p))
        (getE (chain l p) (k2+1)) = getE l p := by
      apply getE_set_self
      rw [shiftUp_length]
      exact hlastlt
    have hparent2 : (getE (chain l p) (k2+1) - 1)/2 = getE (chain l p) k2 := by
      have hlk := chain_link l p k2 (by omega)
      rw [hlk.2, sChild_parent]
    have hparval : getE ((shiftUp l (chain l p)).set (getE (chain l p) (k2+1)) (getE l p))
        (getE (chain l p) k2) = getE l (getE (chain l p) (k2+1)) := by
      rw [getE_set_ne _ _ _ _
        (Nat.ne_of_gt (sorted_getE_strict _ hc_sorted k2 (k2+1) (by omega) (by omega)))]
      have h4 := shiftUp_getE_link (chain l p) l (chain_nodup l p)
        (chain_mem_lt l p hp) k2 (by omega)
      exact h4
    rw [pysiftup_eq, hdesc, hlast, pysiftdown_eq, hnewitem]
    have hloop1 := siftdownLoop_pos_fuel (getE (chain l p) (k2+1))
      ((shiftUp l (chain l p)).set (getE (chain l p) (k2+1)) (getE l p)) p
      (getE (chain l p) (k2+1)) (getE l p) (by omega)
    rw [hloop1, if_pos hwlt, hparent2, hparval]
    by_cases hcond : getE l p < getE l (getE (chain l p) (k2+1))
    · rw [if_pos hcond]
      have hstep : ((shiftUp l (chain l p)).set (getE (chain l p) (k2+1)) (getE l p)).set
          (getE (chain l p) (k2+1)) (getE l (getE (chain l p) (k2+1)))
          = shiftUp l ((chain l p).take (k2+2)) := by
        rw [List.set_set, ← hshlast, set_getE_self, hfull]
      rw [hstep]
      have hfuel : k2 ≤ getE (chain l p) (k2+1) - 1 := by
        have h5 := chain_getE_lower l p (k2+1) (by omega)
        omega
      obtain ⟨j, hj1, hj2, hj3, hj4⟩ := siftdownLoop_inv k2 l p
        (getE (chain l p) (k2+1) - 1) hp hfuel (by omega)
      rw [hj4]
      refine ⟨j, by omega, ?_, hj3, ?_⟩
      · intro m hm1 hm2
        by_cases hmk : m ≤ k2
        · exact hj2 m hm1 hmk
        · have hmi : m = k2+1 := by omega
          rw [hmi]
          exact hcond
      · -- collapse the final write into the `take (j+1)` form
        have hjlen : j + 1 < (chain l p).length := by omega
        have htkne : (chain l p).take (j+1) ≠ [] := by
          intro hnil
          have h6 : ((chain l p).take (j+1)).length = j+1 := by
            rw [List.length_take]
            omega
          rw [hnil] at h6
          simp at h6
        have hznotin : getE (chain l p) (j+1) ∉ ((chain l p).take (j+1)).dropLast := by
          rw [dropLast_take_succ _ j (by omega)]
          intro hmem
          exact absurd (sorted_take_lt _ hc_sorted j (j+1) (by omega) (by omega) _ hmem)
            (lt_irrefl _)
        have happ : shiftUp l ((chain l p).take (j+2))
            = (shiftUp l ((chain l p).take (j+1))).set (getE (chain l p) j)
                (getE l (getE (chain l p) (j+1))) := by
          rw [take_succ_getE _ (j+1) (by omega)]
          rw [shiftUp_append _ l _ htkne hznotin]
          rw [getLastD_take _ j (by omega)]
        rw [happ, List.set_set]
    · rw [if_neg hcond]
      refine ⟨k2+1, by omega, by intro m hm1 hm2; omega, by intro _; omega, ?_⟩
      show ((shiftUp l (chain l p)).set (getE (chain l p) (k2+1)) (getE l p)).set
          (getE (chain l p) (k2+1)) (getE l p) = _
      rw [List.set_set]
      have hfull2 : (chain l p).take (k2+1+1) = chain l p := hfull
      rw [hfull2]

/-!
## Consequences of the closed form
-/

theorem take_headD (c : List Nat) (m : Nat) : (c.take (m+1)).headD 0 = c.headD 0 := by
  cases c <;> rfl

theorem chainF_last : ∀ (f : Nat) (l : List Nat) (p : Nat), l.length ≤ p + f →
    l.length ≤ 2 * getE (chainF f l p) ((chainF f l p).length - 1) + 1 := by
  intro f
  induction f with
  | zero =>
    intro l p hf
    show l.length ≤ 2 * getE [p] 0 + 1
    have hE : getE [p] 0 = p := rfl
    rw [hE]
    omega
  | succ f ih =>
    intro l p hf
    simp only [chainF]
    by_cases hg : 2*p+1 < l.length
    · rw [if_pos hg]
      have hgt := sChild_gt l p
      have h1 := ih l (sChild l p) (by omega)
      have hne := chainF_ne_nil f l (sChild l p)
      have hlenpos : 0 < (chainF f l (sChild l p)).length := List.length_pos.mpr hne
      have h2 : (p :: chainF f l (sChild l p)).length - 1 = (chainF f l (sChild l p)).length := by
        simp
      rw [h2]
      have h3 : getE (p :: chainF f l (sChild l p)) ((chainF f l (sChild l p)).length)
          = getE (chainF f l (sChild l p)) ((chainF f l (sChild l p)).length - 1) := by
        have h4 : (chainF f l (sChild l p)).length = ((chainF f l (sChild l p)).length - 1) + 1 := by
          omega
        conv_lhs => rw [h4]
        exact getE_cons_succ _ _ _
      rw [h3]
      exact h1
    · rw [if_neg hg]
      show l.length ≤ 2 * getE [p] 0 + 1
      have hE : getE [p] 0 = p := rfl
      rw [hE]
      omega

theorem chain_last_leaf (l : List Nat) (p : Nat) :
    l.length ≤ 2 * getE (chain l p) ((chain l p).length - 1) + 1 :=
  chainF_last l.length l p (by omega)

theorem getE_mem_take (c : List Nat) (m mm : Nat) (h1 : m < mm) (h2 : m < c.length) :
    getE c m ∈ c.take mm := by
  have h3 : m < (c.take mm).length := by
    rw [List.length_take]
    omega
  have h4 := getE_mem (c.take mm) m h3
  rw [getE_take c m mm h1] at h4
  exact h4

theorem sorted_getE_inj (c : List Nat) (hs : c.Sorted (· < ·)) (m1 m2 : Nat)
    (h1 : m1 < c.length) (h2 : m2 < c.length) (he : getE c m1 = getE c m2) : m1 = m2 := by
  rcases Nat.lt_trichotomy m1 m2 with h | h | h
  · have := sorted_getE_strict c hs m1 m2 h h2
    omega
  · exact h
  · have := sorted_getE_strict c hs m2 m1 h h1
    omega

theorem chain_desc_from (l : List Nat) (p : Nat) :
    ∀ m1 m2, m1 ≤ m2 → m2 < (chain l p).length →
      Desc (getE (chain l p) m1) (getE (chain l p) m2) := by
  intro m1 m2
  induction m2 with
  | zero =>
    intro h1 _
    have h2 : m1 = 0 := by omega
    rw [h2]
    exact .refl _
  | succ m2 ih =>
    intro h1 h2
    by_cases hm : m1 = m2 + 1
    · rw [hm]; exact .refl _
    · have h3 := ih (by omega) (by omega)
      have h4 := chain_link l p m2 h2
      refine h3.trans ?_
      rw [h4.2]
      exact Desc.child_sChild _ _

theorem pysiftup_length (l : List Nat) (p : Nat) (hp : p < l.length) :
    (pysiftup l p).length = l.length := by
  obtain ⟨j, _, _, _, heq⟩ := pysiftup_closed l p hp
  rw [heq, List.length_set, shiftUp_length]

/-- `_siftup` permutes the list (multiset form). -/
theorem pysiftup_ms (l : List Nat) (p : Nat) (hp : p < l.length) :
    ((pysiftup l p : List Nat) : Multiset Nat) = (l : Multiset Nat) := by
  obtain ⟨j, hj1, _, _, heq⟩ := pysiftup_closed l p hp
  have htkne : (chain l p).take (j+1) ≠ [] := by
    intro hnil
    have h6 : ((chain l p).take (j+1)).length = j+1 := by
      rw [List.length_take]
      omega
    rw [hnil] at h6
    simp at h6
  have hnd : ((chain l p).take (j+1)).Nodup :=
    (List.take_sublist _ _).nodup (chain_nodup l p)
  have hbd : ∀ x ∈ (chain l p).take (j+1), x < l.length := fun x hx =>
    chain_mem_lt l p hp x (List.take_subset _ _ hx)
  have hms := shiftUp_ms ((chain l p).take (j+1)) l (getE l p) htkne hnd hbd
  rw [getLastD_take _ j hj1] at hms
  rw [take_headD, chain_headD] at hms
  rw [heq]
  exact add_right_cancel hms

/-- `_siftup` at `p` does not change entries outside the subtree of `p`. -/
theorem pysiftup_getE_off (l : List Nat) (p : Nat) (hp : p < l.length) (q : Nat)
    (hq : ¬ Desc p q) : getE (pysiftup l p) q = getE l q := by
  obtain ⟨j, hj1, _, _, heq⟩ := pysiftup_closed l p hp
  rw [heq]
  have hqc : q ∉ chain l p := fun hmem => hq (chain_desc l p q hmem)
  have hne : getE (chain l p) j ≠ q := by
    intro h
    exact hqc (h ▸ getE_mem _ _ hj1)
  rw [getE_set_ne _ _ _ _ hne]
  apply shiftUp_getE_off
  intro hmem
  exact hqc (List.take_subset _ _ (mem_of_mem_dropLast hmem))

/-- Under the precondition that the two child subtrees of `p` are
heap-ordered, the values of `l` along the descent chain are nondecreasing
from chain index 1 on. -/
theorem chain_incr (l : List Nat) (p : Nat) (hp : p < l.length)
    (hsl : subtreeHeap l (2*p+1)) (hsr : subtreeHeap l (2*p+2)) :
    ∀ m, 1 ≤ m → m + 1 < (chain l p).length →
      getE l (getE (chain l p) m) ≤ getE l (getE (chain l p) (m+1)) := by
  intro m hm1 hm2
  have hlk := chain_link l p m (by omega)
  have hpar : (getE (chain l p) (m+1) - 1)/2 = getE (chain l p) m := by
    rw [hlk.2, sChild_parent]
  have hc1 : getE (chain l p) 1 = sChild l p := by
    have h0 := chain_link l p 0 (by omega)
    rw [chain_getE_zero] at h0
    exact h0.2
  have hdesc1 : Desc (getE (chain l p) 1) (getE (chain l p) m) :=
    chain_desc_from l p 1 m (by omega) (by omega)
  have hD : Desc (sChild l p) (getE (chain l p) m) := hc1 ▸ hdesc1
  have hrlt : getE (chain l p) (m+1) < l.length :=
    chain_mem_lt l p hp _ (getE_mem _ _ hm2)
  have hrpos : 0 < getE (chain l p) (m+1) := by
    have h5 := chain_getE_lower l p (m+1) hm2
    omega
  rcases sChild_cases l p with hsc | hsc
  · have h5 := hsl (getE (chain l p) (m+1)) hrlt hrpos (by rw [hpar, ← hsc]; exact hD)
    rw [hpar] at h5
    exact h5
  · have h5 := hsr (getE (chain l p) (m+1)) hrlt hrpos (by rw [hpar, ← hsc]; exact hD)
    rw [hpar] at h5
    exact h5

/-- A non-root element of a chain prefix is either the chain head `p` or a
chain successor, with the previous chain element as its tree parent. -/
theorem chain_mem_parent (l : List Nat) (p : Nat) (jj : Nat) (r : Nat)
    (hmem : r ∈ (chain l p).take jj) (h0r : 0 < r) :
    r = p ∨ ∃ i2, i2 + 1 < jj ∧ i2 + 1 < (chain l p).length ∧
      getE (chain l p) (i2+1) = r ∧ getE (chain l p) i2 = (r-1)/2 := by
  obtain ⟨idx, hidx1, hidx2, hidx3⟩ := mem_take_getE _ _ _ hmem
  cases idx with
  | zero =>
    left
    rw [← hidx3, chain_getE_zero]
  | succ m =>
    right
    have hlk := chain_link l p m (by omega)
    refine ⟨m, by omega, by omega, hidx3, ?_⟩
    rw [← hidx3, hlk.2, sChild_parent]

/-- `_siftup` at `p` establishes the heap property on the subtree of `p`,
provided the two child subtrees were already heap-ordered. -/
theorem pysiftup_subtreeHeap (l : List Nat) (p : Nat) (hp : p < l.length)
    (hsl : subtreeHeap l (2*p+1)) (hsr : subtreeHeap l (2*p+2)) :
    subtreeHeap (pysiftup l p) p := by
  obtain ⟨j, hjlen, hgt, hstop, heq⟩ := pysiftup_closed l p hp
  have hc_sorted := chain_sorted l p
  have hc_nodup := chain_nodup l p
  have hlenR : (pysiftup l p).length = l.length := pysiftup_length l p hp
  have htklen : ((chain l p).take (j+1)).length = j+1 := by
    rw [List.length_take]
    omega
  have val_off : ∀ x, x ∉ (chain l p).take (j+1) → getE (pysiftup l p) x = getE l x := by
    intro x hx
    rw [heq]
    have hne : getE (chain l p) j ≠ x := fun h =>
      hx (h ▸ getE_mem_take _ j (j+1) (by omega) hjlen)
    rw [getE_set_ne _ _ _ _ hne]
    exact shiftUp_getE_off _ _ _ (fun hmem => hx (mem_of_mem_dropLast hmem))
  have val_j : getE (pysiftup l p) (getE (chain l p) j) = getE l p := by
    rw [heq]
    apply getE_set_self
    rw [shiftUp_length]
    exact chain_mem_lt l p hp _ (getE_mem _ _ hjlen)
  have val_lt : ∀ i2, i2 < j →
      getE (pysiftup l p) (getE (chain l p) i2) = getE l (getE (chain l p) (i2+1)) := by
    intro i2 hij
    rw [heq]
    have hne : getE (chain l p) j ≠ getE (chain l p) i2 :=
      Nat.ne_of_gt (sorted_getE_strict _ hc_sorted i2 j hij hjlen)
    rw [getE_set_ne _ _ _ _ hne]
    have hnd : ((chain l p).take (j+1)).Nodup := (List.take_sublist _ _).nodup hc_nodup
    have hbd : ∀ x ∈ (chain l p).take (j+1), x < l.length := fun x hx =>
      chain_mem_lt l p hp x (List.take_subset _ _ hx)
    have h6 := shiftUp_getE_link ((chain l p).take (j+1)) l hnd hbd i2
      (by rw [htklen]; omega)
    rw [getE_take _ i2 (j+1) (by omega), getE_take _ (i2+1) (j+1) (by omega)] at h6
    exact h6
  intro r hrlen h0r hdescr
  rw [hlenR] at hrlen
  obtain ⟨q, hq⟩ : ∃ q, (r-1)/2 = q := ⟨_, rfl⟩
  rw [hq] at hdescr ⊢
  have hqr : r = 2*q+1 ∨ r = 2*q+2 := by omega
  by_cases hqmem : q ∈ (chain l p).take (j+1)
  · obtain ⟨i2, hi2a, hi2len, hi2q⟩ :
        ∃ i2, i2 ≤ j ∧ i2 < (chain l p).length ∧ getE (chain l p) i2 = q := by
      obtain ⟨idx, ha, hb, hc⟩ := mem_take_getE _ _ _ hqmem
      exact ⟨idx, by omega, hb, hc⟩
    by_cases hleaf : i2 + 1 = (chain l p).length
    · exfalso
      have h7 := chain_last_leaf l p
      have h8 : (chain l p).length - 1 = i2 := by omega
      rw [h8, hi2q] at h7
      omega
    · have hi2len2 : i2 + 1 < (chain l p).length := by omega
      have hlk := chain_link l p i2 hi2len2
      have hguard : 2*q+1 < l.length := by
        rw [← hi2q]
        exact hlk.1
      have hscq : getE (chain l p) (i2+1) = sChild l q := by
        rw [hlk.2, hi2q]
      by_cases hrc : r = getE (chain l p) (i2+1)
      · -- r is the chain child of q
        by_cases hi2j : i2 = j
        · have hvq : getE (pysiftup l p) q = getE l p := by
            rw [← hi2q, hi2j]
            exact val_j
          have hroff : r ∉ (chain l p).take (j+1) := by
            rw [hrc, hi2j]
            intro hmem
            exact absurd
              (sorted_take_lt _ hc_sorted (j+1) (j+1) (Nat.le_refl _) (by omega) _ hmem)
              (lt_irrefl _)
          rw [hvq, val_off r hroff, hrc, hi2j]
          exact le_of_lt (hgt (j+1) (by omega) (by omega))
        · have hi2lt : i2 < j := by omega
          have hvq : getE (pysiftup l p) q = getE l (getE (chain l p) (i2+1)) := by
            rw [← hi2q]
            exact val_lt i2 hi2lt
          by_cases hi21j : i2 + 1 = j
          · have hvr : getE (pysiftup l p) r = getE l p := by
              rw [hrc, hi21j]
              exact val_j
            rw [hvq, hvr, hi21j]
            exact hstop (by omega)
          · have hvr : getE (pysiftup l p) r = getE l (getE (chain l p) (i2+2)) := by
              rw [hrc]
              exact val_lt (i2+1) (by omega)
            rw [hvq, hvr]
            exact chain_incr l p hp hsl hsr (i2+1) (by omega) (by omega)
      · -- r is the sibling of the chain child of q
        have hroff : r ∉ (chain l p).take (j+1) := by
          intro hmem
          rcases chain_mem_parent l p (j+1) r hmem h0r with h | ⟨m, hm1, hm2, hm3, hm4⟩
          · have hpq : p ≤ q := by
              rw [← hi2q]
              exact chainF_mem_ge _ _ _ _ (getE_mem _ _ hi2len)
            omega
          · rw [hq] at hm4
            have hmi : m = i2 := sorted_getE_inj _ hc_sorted m i2 (by omega) hi2len
              (by rw [hm4, hi2q])
            rw [hmi] at hm3
            exact hrc hm3.symm
        have hvr := val_off r hroff
        have h10 := sChild_min l q hguard
        have hrs : r ≠ sChild l q := by
          rw [← hscq]
          exact hrc
        by_cases hi2j : i2 = j
        · have hvq : getE (pysiftup l p) q = getE l p := by
            rw [← hi2q, hi2j]
            exact val_j
          have h9 : getE l p < getE l (sChild l q) := by
            rw [← hscq]
            exact hgt (i2+1) (by omega) hi2len2
          rw [hvq, hvr]
          rcases hqr with h | h
          · rcases sChild_cases l q with hs | hs
            · exact absurd (h.trans hs.symm) hrs
            · have h11 := h10.1
              rw [h]
              omega
          · rcases sChild_cases l q with hs | hs
            · have h11 := h10.2 (by omega)
              rw [h]
              omega
            · exact absurd (h.trans hs.symm) hrs
        · have hi2lt : i2 < j := by omega
          have hvq : getE (pysiftup l p) q = getE l (getE (chain l p) (i2+1)) := by
            rw [← hi2q]
            exact val_lt i2 hi2lt
          rw [hvq, hvr, hscq]
          rcases hqr with h | h
          · rcases sChild_cases l q with hs | hs
            · exact absurd (h.trans hs.symm) hrs
            · rw [h]
              exact h10.1
          · rcases sChild_cases l q with hs | hs
            · rw [h]
              exact h10.2 (by omega)
            · exact absurd (h.trans hs.symm) hrs
  · -- q is outside the modified chain prefix
    have hvq := val_off q hqmem
    have hpmem : p ∈ (chain l p).take (j+1) := by
      have h12 := getE_mem_take (chain l p) 0 (j+1) (by omega) (by omega)
      rw [chain_getE_zero] at h12
      exact h12
    have hqp : q ≠ p := fun h => hqmem (h ▸ hpmem)
    have hroff : r ∉ (chain l p).take (j+1) := by
      intro hmem
      rcases chain_mem_parent l p (j+1) r hmem h0r with h | ⟨m, hm1, hm2, hm3, hm4⟩
      · have hle := hdescr.le
        omega
      · rw [hq] at hm4
        exact hqmem (hm4 ▸ getE_mem_take _ m (j+1) (by omega) (by omega))
    have hvr := val_off r hroff
    rw [hvq, hvr]
    rcases hdescr.cases_children with h | h | h
    · exact absurd h hqp
    · have h13 := hsl r hrlen h0r (by rw [hq]; exact h)
      rw [hq] at h13
      exact h13
    · have h13 := hsr r hrlen h0r (by rw [hq]; exact h)
      rw [hq] at h13
      exact h13

/-!
## Correctness of `heapify` and `heappop`
-/

theorem heapifyAux_correct : ∀ (i : Nat) (l : List Nat), i ≤ l.length →
    (∀ r, r < l.length → 0 < r → i ≤ (r-1)/2 → getE l ((r-1)/2) ≤ getE l r) →
    ((heapifyAux i l : List Nat) : Multiset Nat) = (l : Multiset Nat) ∧
    (heapifyAux i l).length = l.length ∧ heapProp (heapifyAux i l) := by
  intro i
  induction i with
  | zero =>
    intro l _ hinv
    exact ⟨rfl, rfl, fun r h1 h2 => hinv r h1 h2 (Nat.zero_le _)⟩
  | succ i ih =>
    intro l hle hinv
    have hp : i < l.length := by omega
    have hsl : subtreeHeap l (2*i+1) := by
      intro r h1 h2 h3
      exact hinv r h1 h2 (by have := h3.le; omega)
    have hsr : subtreeHeap l (2*i+2) := by
      intro r h1 h2 h3
      exact hinv r h1 h2 (by have := h3.le; omega)
    have hsub := pysiftup_subtreeHeap l i hp hsl hsr
    have hlen2 := pysiftup_length l i hp
    have hms2 := pysiftup_ms l i hp
    have hinv2 : ∀ r, r < (pysiftup l i).length → 0 < r → i ≤ (r-1)/2 →
        getE (pysiftup l i) ((r-1)/2) ≤ getE (pysiftup l i) r := by
      intro r h1 h2 h3
      by_cases hdq : Desc i ((r-1)/2)
      · exact hsub r h1 h2 hdq
      · have hdr : ¬ Desc i r := by
          intro hdr
          have hri : r ≠ i := by
            intro h
            rcases Nat.eq_zero_or_pos i with hz | hz
            · rw [hz] at hdq
              exact hdq (Desc.root _)
            · omega
          exact hdq (hdr.parent_of hri)
        have hq2 : ¬ ((r-1)/2 = i) := by
          intro h
          rw [h] at hdq
          exact hdq (.refl i)
        rw [pysiftup_getE_off l i hp _ hdq, pysiftup_getE_off l i hp _ hdr]
        rw [hlen2] at h1
        exact hinv r h1 h2 (by omega)
    have hres := ih (pysiftup l i) (by omega) hinv2
    show ((heapifyAux i (pysiftup l i) : List Nat) : Multiset Nat) = _ ∧
      (heapifyAux i (pysiftup l i)).length = _ ∧ heapProp _
    refine ⟨hres.1.trans hms2, hres.2.1.trans hlen2, hres.2.2⟩

theorem pyheapify_ms (l : List Nat) :
    ((pyheapify l : List Nat) : Multiset Nat) = (l : Multiset Nat) := by
  refine (heapifyAux_correct (l.length / 2) l (by omega) ?_).1
  intro r h1 _ h3
  omega

theorem pyheapify_heapProp (l : List Nat) : heapProp (pyheapify l) := by
  refine (heapifyAux_correct (l.length / 2) l (by omega) ?_).2.2
  intro r h1 _ h3
  omega

theorem pyheapify_length (l : List Nat) : (pyheapify l).length = l.length := by
  refine (heapifyAux_correct (l.length / 2) l (by omega) ?_).2.1
  intro r h1 _ h3
  omega

theorem heapProp_root_min (l : List Nat) (hl : heapProp l) :
    ∀ m, m < l.length → getE l 0 ≤ getE l m := by
  intro m
  induction m using Nat.strong_induction_on with
  | _ m ih =>
    intro hm
    rcases Nat.eq_zero_or_pos m with hz | hz
    · rw [hz]
    · have h1 := ih ((m-1)/2) (by omega) (by omega)
      have h2 := hl m hm hz
      omega

theorem mem_getE : ∀ (l : List Nat) (y : Nat), y ∈ l → ∃ m, m < l.length ∧ getE l m = y := by
  intro l
  induction l with
  | nil => intro y hy; simp at hy
  | cons a t ih =>
    intro y hy
    rcases List.mem_cons.mp hy with h | h
    · exact ⟨0, by simp, h.symm⟩
    · obtain ⟨m, h1, h2⟩ := ih y h
      exact ⟨m+1, by simpa using h1, h2⟩

theorem getE_dropLast (L : List Nat) (m : Nat) (h : m < L.length - 1) :
    getE L.dropLast m = getE L m := by
  rw [List.dropLast_eq_take]
  exact getE_take L m (L.length - 1) h

theorem getLast_eq_getLastD : ∀ (L : List Nat) (h : L ≠ []), L.getLast h = L.getLastD 0 := by
  intro L
  induction L with
  | nil => intro h; exact absurd rfl h
  | cons a t ih =>
    intro _
    cases t with
    | nil => rfl
    | cons b r =>
      rw [List.getLast_cons (by simp), List.getLastD_cons]
      rw [ih (by simp)]
      exact getLastD_irrel _ (by simp) 0 a

theorem pyheappop_none (l : List Nat) : pyheappop l = none ↔ l = [] := by
  cases l with
  | nil => simp [pyheappop]
  | cons a t =>
    cases t with
    | nil => simp [pyheappop]
    | cons b r => simp [pyheappop]

theorem pyheappop_correct (l : List Nat) (hl : heapProp l) (x : Nat) (l2 : List Nat)
    (hpop : pyheappop l = some (x, l2)) :
    heapProp l2 ∧ ((l2 : List Nat) : Multiset Nat) + {x} = (l : Multiset Nat) ∧
      (∀ y ∈ l, x ≤ y) ∧ l2.length + 1 = l.length := by
  cases l with
  | nil => simp [pyheappop] at hpop
  | cons a t =>
    cases t with
    | nil =>
      have h0 : (a, ([] : List Nat)) = (x, l2) := Option.some.inj hpop
      have hxa : a = x := congrArg Prod.fst h0
      have hl2 : ([] : List Nat) = l2 := congrArg Prod.snd h0
      subst hxa
      subst hl2
      refine ⟨by intro i h1 h2; simp at h1, by simp, ?_, by simp⟩
      intro y hy
      rw [List.mem_singleton] at hy
      omega
    | cons b rest =>
      have h0 : (a, pysiftup (((a :: b :: rest).dropLast).set 0
          ((a :: b :: rest).getLastD 0)) 0) = (x, l2) := Option.some.inj hpop
      have hx : x = a ∧ l2 = pysiftup (((a :: b :: rest).dropLast).set 0
          ((a :: b :: rest).getLastD 0)) 0 :=
        ⟨(congrArg Prod.fst h0).symm, (congrArg Prod.snd h0).symm⟩
      have hnL : (a :: b :: rest).length = rest.length + 2 := by simp
      have hL2len : (((a :: b :: rest).dropLast).set 0 ((a :: b :: rest).getLastD 0)).length
          = rest.length + 1 := by
        rw [List.length_set, List.length_dropLast, hnL]
        omega
      have hL2pos : 0 < (((a :: b :: rest).dropLast).set 0
          ((a :: b :: rest).getLastD 0)).length := by
        rw [hL2len]
        omega
      have hvals : ∀ m, 0 < m → m < rest.length + 1 →
          getE (((a :: b :: rest).dropLast).set 0 ((a :: b :: rest).getLastD 0)) m
            = getE (a :: b :: rest) m := by
        intro m hm1 hm2
        rw [getE_set_ne _ _ _ _ (by omega)]
        apply getE_dropLast
        rw [hnL]
        omega
      have hsl : subtreeHeap (((a :: b :: rest).dropLast).set 0
          ((a :: b :: rest).getLastD 0)) 1 := by
        intro r h1 h2 h3
        rw [hL2len] at h1
        have hq1 : 1 ≤ (r-1)/2 := h3.le
        rw [hvals ((r-1)/2) (by omega) (by omega), hvals r (by omega) (by omega)]
        exact hl r (by rw [hnL]; omega) h2
      have hsr : subtreeHeap (((a :: b :: rest).dropLast).set 0
          ((a :: b :: rest).getLastD 0)) 2 := by
        intro r h1 h2 h3
        rw [hL2len] at h1
        have hq1 : 2 ≤ (r-1)/2 := h3.le
        rw [hvals ((r-1)/2) (by omega) (by omega), hvals r (by omega) (by omega)]
        exact hl r (by rw [hnL]; omega) h2
      have hsub := pysiftup_subtreeHeap _ 0 hL2pos hsl hsr
      have hms := pysiftup_ms _ 0 hL2pos
      have hlen := pysiftup_length _ 0 hL2pos
      refine ⟨?_, ?_, ?_, ?_⟩
      · -- heap property of the new list
        rw [hx.2]
        intro i h1 h2
        exact hsub i h1 h2 (Desc.root _)
      · -- multiset: the new list plus the popped root is the old list
        rw [hx.2, hx.1, hms]
        have h4 := ms_set ((a :: b :: rest).dropLast) 0 ((a :: b :: rest).getLastD 0)
          (by rw [List.length_dropLast, hnL]; omega)
        have h5 : getE ((a :: b :: rest).dropLast) 0 = a := by
          rw [getE_dropLast _ 0 (by rw [hnL]; omega)]
          rfl
        rw [h5] at h4
        rw [h4]
        have h6 := List.dropLast_append_getLast (l := a :: b :: rest) (by simp)
        rw [getLast_eq_getLastD _ (by simp)] at h6
        calc ((a :: b :: rest).dropLast : Multiset Nat) + {(a :: b :: rest).getLastD 0}
            = (((a :: b :: rest).dropLast ++ [(a :: b :: rest).getLastD 0] : List Nat)
              : Multiset Nat) := by
              rw [← Multiset.coe_add]
              rfl
          _ = ((a :: b :: rest : List Nat) : Multiset Nat) := by rw [h6]
      · -- minimality of the popped root
        intro y hy
        obtain ⟨m, hm1, hm2⟩ := mem_getE _ y hy
        rw [hx.1, ← hm2]
        exact heapProp_root_min _ hl m hm1
      · rw [hx.2, hlen, hL2len, hnL]

/-!
## Properties of `pySorted` and the floor operations
-/

theorem msSort_coe : ∀ (m : Multiset Nat), ((msSort m : List Nat) : Multiset Nat) = m := by
  intro m
  induction m using Quotient.inductionOn with
  | h lst => exact Multiset.coe_eq_coe.mpr (List.perm_insertionSort _ lst)

theorem msSort_sorted : ∀ (m : Multiset Nat), (msSort m).Sorted (· ≤ ·) := by
  intro m
  induction m using Quotient.inductionOn with
  | h lst => exact List.sorted_insertionSort _ lst

theorem pySorted_coe (s : Finset Nat) : ((pySorted s : List Nat) : Multiset Nat) = s.val :=
  msSort_coe s.val

theorem pySorted_nodup (s : Finset Nat) : (pySorted s).Nodup := by
  have h1 := pySorted_coe s
  have h2 : (pySorted s : Multiset Nat).Nodup := by
    rw [h1]
    exact s.nodup
  exact h2

theorem pySorted_mem (s : Finset Nat) (x : Nat) : x ∈ pySorted s ↔ x ∈ s := by
  have h1 := pySorted_coe s
  constructor
  · intro h
    have h2 : x ∈ (pySorted s : Multiset Nat) := h
    rw [h1] at h2
    exact h2
  · intro h
    have h2 : x ∈ s.val := h
    rw [← h1] at h2
    exact h2

theorem pySorted_length (s : Finset Nat) : (pySorted s).length = s.card := by
  have h1 := congrArg Multiset.card (pySorted_coe s)
  rw [Multiset.coe_card] at h1
  exact h1

theorem pySorted_sorted_lt (s : Finset Nat) : (pySorted s).Sorted (· < ·) := by
  have h1 : (pySorted s).Sorted (· ≤ ·) := msSort_sorted s.val
  have h2 := pySorted_nodup s
  exact List.Sorted.lt_of_le h1 h2

/-- The heap-list / set coherence invariant of a floor: the heap list
satisfies the binary min-heap property and carries exactly the multiset
of elements of `available_set`. -/
def HeapInv (f : Floor) : Prop :=
  heapProp f.available_spots ∧
    ((f.available_spots : List Nat) : Multiset Nat) = f.available_set.val

instance (f : Floor) : Decidable (HeapInv f) := by
  unfold HeapInv
  infer_instance

theorem HeapInv.length_eq {f : Floor} (hf : HeapInv f) :
    f.available_spots.length = f.available_set.card := by
  have h1 := congrArg Multiset.card hf.2
  rw [Multiset.coe_card] at h1
  exact h1

theorem HeapInv.mem_iff {f : Floor} (hf : HeapInv f) (x : Nat) :
    x ∈ f.available_spots ↔ x ∈ f.available_set := by
  constructor
  · intro h
    have h2 : x ∈ (f.available_spots : Multiset Nat) := h
    rw [hf.2] at h2
    exact h2
  · intro h
    have h2 : x ∈ f.available_set.val := h
    rw [← hf.2] at h2
    exact h2

theorem heapInv_rebuild (fn : Nat) (s : Finset Nat) :
    HeapInv { floor_number := fn, available_spots := pyheapify (pySorted s),
              available_set := s } :=
  ⟨pyheapify_heapProp _, by rw [pyheapify_ms, pySorted_coe]⟩

theorem heapInv_init (fn spf : Nat) : HeapInv (Floor.init fn spf) := by
  refine ⟨pyheapify_heapProp _, ?_⟩
  show ((pyheapify (List.range spf) : List Nat) : Multiset Nat) = (Finset.range spf).val
  rw [pyheapify_ms]
  rfl

theorem findAdj_some_spec : ∀ (l : List Nat), l.Sorted (· < ·) → ∀ a, findAdj l = some a →
    a ∈ l ∧ a + 1 ∈ l ∧ ∀ t, t < a → ¬(t ∈ l ∧ t + 1 ∈ l) := by
  intro l
  induction l with
  | nil => intro _ a h; simp [findAdj] at h
  | cons x t ih =>
    intro hs a h
    cases t with
    | nil => simp [findAdj] at h
    | cons b rest =>
      rcases List.sorted_cons.mp hs with ⟨hx, hst⟩
      by_cases hadj : x + 1 = b
      · have ha : a = x := by
          simp [findAdj, if_pos hadj] at h
          omega
        subst ha
        refine ⟨List.mem_cons_self _ _, by rw [hadj]; simp, ?_⟩
        intro t2 ht2 ⟨hmem, _⟩
        rcases List.mem_cons.mp hmem with h2 | h2
        · omega
        · have := hx t2 h2
          omega
      · have h2 : findAdj (b :: rest) = some a := by
          simpa [findAdj, if_neg hadj] using h
        obtain ⟨h3, h4, h5⟩ := ih hst a h2
        refine ⟨List.mem_cons_of_mem _ h3, List.mem_cons_of_mem _ h4, ?_⟩
        intro t2 ht2 ⟨hmem, hmem1⟩
        rcases List.mem_cons.mp hmem with h6 | h6
        · -- t2 = x: then x+1 would have to be in the tail, forcing x+1 = b
          subst h6
          rcases List.mem_cons.mp hmem1 with h7 | h7
          · omega
          · rcases List.mem_cons.mp h7 with h9 | h9
            · exact hadj h9
            · rcases List.sorted_cons.mp hst with ⟨hb, _⟩
              have h10 := hb _ h9
              have h11 := hx b (List.mem_cons_self _ _)
              omega
        · -- t2 in the tail
          have h7 : t2 + 1 ∈ b :: rest := by
            rcases List.mem_cons.mp hmem1 with h8 | h8
            · have := hx t2 h6
              omega
            · exact h8
          exact h5 t2 ht2 ⟨h6, h7⟩

theorem findAdj_none_spec : ∀ (l : List Nat), l.Sorted (· < ·) → findAdj l = none →
    ¬ ∃ a, a ∈ l ∧ a + 1 ∈ l := by
  intro l
  induction l with
  | nil => intro _ _ ⟨a, ha, _⟩; simp at ha
  | cons x t ih =>
    intro hs h ⟨a, ha, ha1⟩
    cases t with
    | nil =>
      rcases List.mem_singleton.mp ha with h2
      rcases List.mem_singleton.mp ha1 with h3
      omega
    | cons b rest =>
      rcases List.sorted_cons.mp hs with ⟨hx, hst⟩
      by_cases hadj : x + 1 = b
      · simp [findAdj, if_pos hadj] at h
      · have h2 : findAdj (b :: rest) = none := by
          simpa [findAdj, if_neg hadj] using h
        apply ih hst h2
        rcases List.mem_cons.mp ha with h3 | h3
        · -- a = x: a+1 must be in the tail and then equals b
          subst h3
          rcases List.mem_cons.mp ha1 with h4 | h4
          · omega
          · rcases List.mem_cons.mp h4 with h5 | h5
            · exact absurd h5 hadj
            · rcases List.sorted_cons.mp hst with ⟨hb, _⟩
              have h10 := hb _ h5
              have h11 := hx b (List.mem_cons_self _ _)
              omega
        · refine ⟨a, h3, ?_⟩
          rcases List.mem_cons.mp ha1 with h4 | h4
          · have := hx a h3
            omega
          · exact h4

theorem occupy_spots_one (f : Floor) : f.occupy_spots 1 =
    match pyheappop f.available_spots with
    | none => (none, f)
    | some (spot, rest) =>
      (some spot, { f with available_spots := rest
                           available_set := f.available_set.erase spot }) := rfl

theorem occupy_spots_ne_one (f : Floor) (n : Nat) (hn : n ≠ 1) : f.occupy_spots n =
    match findAdj (pySorted f.available_set) with
    | some start =>
      (some start,
        { f with available_set := f.available_set \ {start, start+1}
                 available_spots :=
                   pyheapify (pySorted (f.available_set \ {start, start+1})) })
    | none => (none, f) := by
  unfold Floor.occupy_spots
  rw [if_neg hn]

/-- A failed `_occupy_spots` leaves the floor unchanged. -/
theorem occupy_fail (f : Floor) (n : Nat) (f2 : Floor)
    (h : f.occupy_spots n = (none, f2)) : f2 = f := by
  by_cases hn : n = 1
  · subst hn
    rw [occupy_spots_one] at h
    cases hpop : pyheappop f.available_spots with
    | none =>
      rw [hpop] at h
      exact (congrArg Prod.snd h).symm
    | some v =>
      rw [hpop] at h
      obtain ⟨spot, rest⟩ := v
      exact absurd (congrArg Prod.fst h) (by simp)
  · rw [occupy_spots_ne_one f n hn] at h
    cases hadj : findAdj (pySorted f.available_set) with
    | none =>
      rw [hadj] at h
      exact (congrArg Prod.snd h).symm
    | some start =>
      rw [hadj] at h
      exact absurd (congrArg Prod.fst h) (by simp)

/-- A successful single-spot `_occupy_spots` on a coherent floor pops the
minimum of the free set, erases it from the set, and preserves coherence. -/
theorem occupy_one_some (f : Floor) (hf : HeapInv f) (m : Nat) (f2 : Floor)
    (h : f.occupy_spots 1 = (some m, f2)) :
    m ∈ f.available_set ∧ (∀ y ∈ f.available_set, m ≤ y) ∧
      f2.available_set = f.available_set.erase m ∧
      f2.floor_number = f.floor_number ∧ HeapInv f2 := by
  rw [occupy_spots_one] at h
  cases hpop : pyheappop f.available_spots with
  | none =>
    rw [hpop] at h
    exact absurd (congrArg Prod.fst h) (by simp)
  | some v =>
    obtain ⟨spot, rest⟩ := v
    rw [hpop] at h
    have hm : spot = m := by
      have h1 := congrArg Prod.fst h
      simpa using h1
    have hf2 : f2 = { f with available_spots := rest
                             available_set := f.available_set.erase spot } :=
      (congrArg Prod.snd h).symm
    obtain ⟨hheap, hms, hmin, _⟩ := pyheappop_correct f.available_spots hf.1 spot rest hpop
    have hspot_mem : spot ∈ f.available_set := by
      have h2 : spot ∈ (f.available_spots : Multiset Nat) := by
        rw [← hms]
        simp
      rw [hf.2] at h2
      exact h2
    have hrest : ((rest : List Nat) : Multiset Nat) = (f.available_set.erase spot).val := by
      rw [Finset.erase_val, ← hf.2, ← hms]
      rw [add_comm, Multiset.singleton_add, Multiset.erase_cons_head]
    subst hm
    refine ⟨hspot_mem, ?_, by rw [hf2], by rw [hf2], ?_⟩
    · intro y hy
      apply hmin
      exact (hf.mem_iff y).mpr hy
    · rw [hf2]
      exact ⟨hheap, hrest⟩

/-- On a coherent floor, single-spot `_occupy_spots` fails exactly when the
free set is empty. -/
theorem occupy_one_none (f : Floor) (hf : HeapInv f) :
    (f.occupy_spots 1).1 = none ↔ f.available_set = ∅ := by
  rw [occupy_spots_one]
  cases hpop : pyheappop f.available_spots with
  | none =>
    have hemp : f.available_spots = [] := (pyheappop_none _).mp hpop
    simp only [hpop]
    constructor
    · intro _
      have h2 := hf.2
      rw [hemp] at h2
      have h3 : f.available_set.val = 0 := by
        rw [← h2]
        rfl
      exact Finset.val_eq_zero.mp h3
    · intro _
      trivial
  | some v =>
    obtain ⟨spot, rest⟩ := v
    simp only [hpop]
    constructor
    · intro h2
      exact absurd h2 (by simp)
    · intro h2
      have hemp : f.available_spots = [] := by
        have h3 := hf.2
        rw [h2] at h3
        have h4 : (f.available_spots : Multiset Nat) = 0 := by
          rw [h3]
          rfl
        exact (Multiset.coe_eq_zero _).mp h4
      rw [hemp] at hpop
      simp [pyheappop] at hpop

/-- A successful multi-spot `_occupy_spots` returns the lowest start of an
adjacent free pair and removes exactly `{start, start+1}` from the set. -/
theorem occupy_pair_some (f : Floor) (n : Nat) (hn : n ≠ 1) (st : Nat) (f2 : Floor)
    (h : f.occupy_spots n = (some st, f2)) :
    st ∈ f.available_set ∧ st + 1 ∈ f.available_set ∧
      (∀ t, t < st → ¬(t ∈ f.available_set ∧ t + 1 ∈ f.available_set)) ∧
      f2.available_set = f.available_set \ {st, st+1} ∧
      f2.floor_number = f.floor_number ∧ HeapInv f2 := by
  rw [occupy_spots_ne_one f n hn] at h
  cases hadj : findAdj (pySorted f.available_set) with
  | none =>
    rw [hadj] at h
    exact absurd (congrArg Prod.fst h) (by simp)
  | some start =>
    rw [hadj] at h
    have hm : start = st := by
      have h1 := congrArg Prod.fst h
      simpa using h1
    subst hm
    have hf2 : f2 = { f with available_set := f.available_set \ {start, start+1}
                             available_spots :=
                               pyheapify (pySorted (f.available_set \ {start, start+1})) } :=
      (congrArg Prod.snd h).symm
    obtain ⟨h1, h2, h3⟩ := findAdj_some_spec _ (pySorted_sorted_lt f.available_set) start hadj
    rw [pySorted_mem] at h1 h2
    refine ⟨h1, h2, ?_, by rw [hf2], by rw [hf2], ?_⟩
    · intro t ht ⟨ht1, ht2⟩
      exact h3 t ht ⟨(pySorted_mem _ t).mpr ht1, (pySorted_mem _ (t+1)).mpr ht2⟩
    · rw [hf2]
      exact heapInv_rebuild f.floor_number _

/-- Multi-spot `_occupy_spots` fails exactly when the free set has no
adjacent pair. -/
theorem occupy_pair_none (f : Floor) (n : Nat) (hn : n ≠ 1) :
    (f.occupy_spots n).1 = none ↔
      ¬ ∃ a, a ∈ f.available_set ∧ a + 1 ∈ f.available_set := by
  rw [occupy_spots_ne_one f n hn]
  cases hadj : findAdj (pySorted f.available_set) with
  | none =>
    simp only [hadj]
    constructor
    · intro _ ⟨a, ha, ha1⟩
      exact findAdj_none_spec _ (pySorted_sorted_lt f.available_set) hadj
        ⟨a, (pySorted_mem _ a).mpr ha, (pySorted_mem _ (a+1)).mpr ha1⟩
    · intro _
      trivial
  | some start =>
    simp only [hadj]
    constructor
    · intro h2
      exact absurd h2 (by simp)
    · intro h2
      obtain ⟨h3, h4, _⟩ := findAdj_some_spec _ (pySorted_sorted_lt f.available_set) start hadj
      rw [pySorted_mem] at h3 h4
      exact absurd ⟨start, h3, h4⟩ h2

/-- `free_spots` adds exactly `range(start, start+num)` to the free set,
keeps the floor number, and restores coherence. -/
theorem free_spots_spec (f : Floor) (s n : Nat) :
    (f.free_spots s n).available_set = f.available_set ∪ Finset.Ico s (s + n) ∧
      (f.free_spots s n).floor_number = f.floor_number ∧ HeapInv (f.free_spots s n) :=
  ⟨rfl, rfl, heapInv_rebuild f.floor_number _⟩

/-!
## Association-list (Python dict) lemmas for the registry
-/

theorem lookup_none_iff : ∀ (m : List (String × List SpotAssignment)) (p : String),
    m.lookup p = none ↔ ∀ e ∈ m, e.1 ≠ p := by
  intro m p
  induction m with
  | nil => simp
  | cons e t ih =>
    obtain ⟨k, v⟩ := e
    rw [List.lookup_cons]
    by_cases hk : p = k
    · subst hk
      simp only [beq_self_eq_true]
      constructor
      · intro h
        exact absurd h (by simp)
      · intro h
        exact absurd rfl (h (p, v) (List.mem_cons_self _ _))
    · have hb : (p == k) = false := beq_false_of_ne hk
      rw [hb]
      show t.lookup p = none ↔ _
      rw [ih]
      constructor
      · intro h e he
        rcases List.mem_cons.mp he with h2 | h2
        · rw [h2]
          intro h3
          exact hk h3.symm
        · exact h e h2
      · intro h e he
        exact h e (List.mem_cons_of_mem _ he)

theorem lookup_eraseP_perm : ∀ (m : List (String × List SpotAssignment)) (p : String)
    (v : List SpotAssignment), m.lookup p = some v →
    m.Perm ((p, v) :: m.eraseP (fun e => e.1 == p)) := by
  intro m p v
  induction m with
  | nil => intro h; simp at h
  | cons e t ih =>
    obtain ⟨k, w⟩ := e
    intro h
    rw [List.lookup_cons] at h
    by_cases hk : p = k
    · subst hk
      simp only [beq_self_eq_true] at h
      have hv : w = v := by
        have h2 : some w = some v := h
        exact Option.some.inj h2
      subst hv
      have herase : ((p, w) :: t).eraseP (fun e => e.1 == p) = t := by
        rw [List.eraseP_cons]
        simp
      rw [herase]
    · have hb : (p == k) = false := beq_false_of_ne hk
      rw [hb] at h
      have h2 : t.lookup p = some v := h
      have herase : ((k, w) :: t).eraseP (fun e => e.1 == p) =
          (k, w) :: t.eraseP (fun e => e.1 == p) := by
        rw [List.eraseP_cons]
        have hb2 : (k == p) = false := beq_false_of_ne (fun h3 => hk h3.symm)
        simp [hb2]
      rw [herase]
      exact List.Perm.trans (List.Perm.cons _ (ih h2)) (List.Perm.swap _ _ _)

theorem eraseP_key_ne : ∀ (m : List (String × List SpotAssignment)) (p : String),
    (m.map Prod.fst).Nodup →
    ∀ e ∈ m.eraseP (fun e => e.1 == p), e.1 ≠ p := by
  intro m p
  induction m with
  | nil => intro _ e he; simp at he
  | cons a t ih =>
    intro hnd e he
    rw [List.map_cons, List.nodup_cons] at hnd
    rw [List.eraseP_cons] at he
    by_cases ha : a.1 = p
    · have hb : (a.1 == p) = true := beq_iff_eq.mpr ha
      rw [hb] at he
      simp only [cond] at he
      intro hep
      apply hnd.1
      rw [ha, ← hep]
      exact List.mem_map_of_mem Prod.fst he
    · have hb : (a.1 == p) = false := beq_false_of_ne ha
      rw [hb] at he
      simp only [cond] at he
      rcases List.mem_cons.mp he with h2 | h2
      · rw [h2]
        exact ha
      · exact ih hnd.2 e h2

theorem eraseP_append_fresh : ∀ (m : List (String × List SpotAssignment)) (p : String)
    (v : List SpotAssignment), (∀ e ∈ m, e.1 ≠ p) →
    (m ++ [(p, v)]).eraseP (fun e => e.1 == p) = m := by
  intro m p v
  induction m with
  | nil =>
    intro _
    show [(p, v)].eraseP (fun e => e.1 == p) = []
    rw [List.eraseP_cons]
    simp
  | cons a t ih =>
    intro h
    have ha : a.1 ≠ p := h a (List.mem_cons_self _ _)
    show ((a :: (t ++ [(p, v)]))).eraseP (fun e => e.1 == p) = a :: t
    rw [List.eraseP_cons]
    have hb : (a.1 == p) = false := beq_false_of_ne ha
    rw [hb]
    simp only [cond]
    rw [ih (fun e he => h e (List.mem_cons_of_mem _ he))]

theorem lookup_append_fresh : ∀ (m : List (String × List SpotAssignment)) (p : String)
    (v : List SpotAssignment), m.lookup p = none →
    (m ++ [(p, v)]).lookup p = some v := by
  intro m p v
  induction m with
  | nil =>
    intro _
    show ((p, v) :: []).lookup p = some v
    rw [List.lookup_cons]
    simp
  | cons a t ih =>
    intro h
    obtain ⟨k, w⟩ := a
    rw [List.lookup_cons] at h
    show (((k, w) :: (t ++ [(p, v)]))).lookup p = some v
    rw [List.lookup_cons]
    cases hb : (p == k) with
    | true =>
      rw [hb] at h
      exact absurd h (by simp)
    | false =>
      rw [hb] at h
      exact ih h

theorem lookup_append_other : ∀ (m : List (String × List SpotAssignment)) (p q : String)
    (v : List SpotAssignment), p ≠ q →
    (m ++ [(q, v)]).lookup p = m.lookup p := by
  intro m p q v hpq
  induction m with
  | nil =>
    show ((q, v) :: []).lookup p = none
    rw [List.lookup_cons]
    have hb : (p == q) = false := beq_false_of_ne hpq
    rw [hb]
    rfl
  | cons a t ih =>
    obtain ⟨k, w⟩ := a
    show (((k, w) :: (t ++ [(q, v)]))).lookup p = ((k, w) :: t).lookup p
    rw [List.lookup_cons, List.lookup_cons]
    cases hb : (p == k) with
    | true => rfl
    | false => exact ih

/-!
## Lot-level infrastructure
-/

theorem getD_set_self_gen {α : Type} : ∀ (l : List α) (i : Nat) (x d : α),
    i < l.length → (l.set i x).getD i d = x := by
  intro l
  induction l with
  | nil => intro i x d h; simp at h
  | cons a t ih =>
    intro i x d h
    cases i with
    | zero => rfl
    | succ i => exact ih i x d (by simpa using h)

theorem getD_set_ne_gen {α : Type} : ∀ (l : List α) (i m : Nat) (x d : α),
    i ≠ m → (l.set i x).getD m d = l.getD m d := by
  intro l
  induction l with
  | nil => intro i m x d _; cases i <;> rfl
  | cons a t ih =>
    intro i m x d hne
    cases i with
    | zero =>
      cases m with
      | zero => exact absurd rfl hne
      | succ m => rfl
    | succ i =>
      cases m with
      | zero => rfl
      | succ m => exact ih i m x d (fun h => hne (by rw [h]))

theorem get?_eq_getD {α : Type} [Inhabited α] : ∀ (l : List α) (i : Nat),
    i < l.length → l.get? i = some (l.getD i default) := by
  intro l
  induction l with
  | nil => intro i h; simp at h
  | cons a t ih =>
    intro i h
    cases i with
    | zero => rfl
    | succ i => exact ih i (by simpa using h)

theorem getD_map_range {α : Type} [Inhabited α] (f : Nat → α) (n i : Nat) (h : i < n) :
    ((List.range n).map f).getD i default = f i := by
  rw [List.getD_eq_getElem?_getD, List.getElem?_map, List.getElem?_range h]
  rfl

/-- The vehicle-kind resolution step of `park_vehicle`: a string goes
through the `VehicleType` enum lookup; a `Vehicle` instance is used
directly. -/
def resolveArg (vt : VehicleArg) : Option Vehicle :=
  match vt with
  | .ofStr s => vehicleTypeLookup s
  | .ofVehicle v => some v

theorem park_vehicle_eq (pl : ParkingLot) (p : String) (vt : VehicleArg) :
    pl.park_vehicle p vt =
      match resolveArg vt with
      | none => (false, pl)
      | some vehicle =>
        if (pl.vehicle_map.lookup p).isSome then (false, pl)
        else
          match tryFloors vehicle.spots_needed pl.floors with
          | some (floors1, fn, start) =>
            (true, { floors := floors1
                     vehicle_map := pl.vehicle_map ++
                       [(p, (List.range vehicle.spots_needed).map
                           (fun i => SpotAssignment.mk fn (start + i)))] })
          | none => (false, pl) := by
  cases vt <;> rfl

theorem leave_vehicle_eq (pl : ParkingLot) (p : String) :
    pl.leave_vehicle p =
      match pl.vehicle_map.lookup p with
      | none => some (false, pl)
      | some spots =>
        match spots with
        | [] =>
          some (false, { pl with vehicle_map := pl.vehicle_map.eraseP (fun e => e.1 == p) })
        | a :: _ =>
          match pl.floors.get? a.floor with
          | none => none
          | some fl =>
            some (true,
              { floors := pl.floors.set a.floor (fl.free_spots a.spot spots.length)
                vehicle_map := pl.vehicle_map.eraseP (fun e => e.1 == p) }) := rfl

theorem tryFloors_cons (need : Nat) (f : Floor) (rest : List Floor) :
    tryFloors need (f :: rest) =
      match f.occupy_spots need with
      | (some start, f1) => some (f1 :: rest, f1.floor_number, start)
      | (none, f1) =>
        match tryFloors need rest with
        | some (rest1, fn, st) => some (f1 :: rest1, fn, st)
        | none => none := rfl

theorem tryFloors_none : ∀ (need : Nat) (fs : List Floor), tryFloors need fs = none →
    ∀ f ∈ fs, (f.occupy_spots need).1 = none := by
  intro need fs
  induction fs with
  | nil => intro _ f hf; simp at hf
  | cons f rest ih =>
    intro h g hg
    rw [tryFloors_cons] at h
    cases hocc : f.occupy_spots need with
    | mk o f1 =>
      cases o with
      | some start =>
        rw [hocc] at h
        simp at h
      | none =>
        rw [hocc] at h
        cases htf : tryFloors need rest with
        | some v =>
          obtain ⟨rest1, fn, st⟩ := v
          rw [htf] at h
          simp at h
        | none =>
          rcases List.mem_cons.mp hg with h2 | h2
          · rw [h2, hocc]
          · exact ih htf g h2

theorem tryFloors_some : ∀ (need : Nat) (fs fs2 : List Floor) (fn st : Nat),
    tryFloors need fs = some (fs2, fn, st) →
    ∃ i f2, i < fs.length ∧
      (∀ m, m < i → ((fs.getD m default).occupy_spots need).1 = none) ∧
      (fs.getD i default).occupy_spots need = (some st, f2) ∧
      fn = f2.floor_number ∧ fs2 = fs.set i f2 := by
  intro need fs
  induction fs with
  | nil => intro fs2 fn st h; simp [tryFloors] at h
  | cons f rest ih =>
    intro fs2 fn st h
    rw [tryFloors_cons] at h
    cases hocc : f.occupy_spots need with
    | mk o f1 =>
      cases o with
      | some start =>
        rw [hocc] at h
        have h2 : fs2 = f1 :: rest ∧ fn = f1.floor_number ∧ st = start := by
          have h3 := Option.some.inj h
          refine ⟨(congrArg Prod.fst h3).symm, ?_, ?_⟩
          · have h4 := congrArg Prod.snd h3
            exact (congrArg Prod.fst h4).symm
          · have h4 := congrArg Prod.snd h3
            exact (congrArg Prod.snd h4).symm
        refine ⟨0, f1, by simp, by intro m hm; omega, ?_, h2.2.1, ?_⟩
        · show f.occupy_spots need = (some st, f1)
          rw [hocc, h2.2.2]
        · rw [h2.1]
          rfl
      | none =>
        rw [hocc] at h
        have hf1 : f1 = f := occupy_fail f need f1 hocc
        cases htf : tryFloors need rest with
        | none =>
          rw [htf] at h
          simp at h
        | some v =>
          obtain ⟨rest1, fn1, st1⟩ := v
          rw [htf] at h
          have h2 : fs2 = f1 :: rest1 ∧ fn = fn1 ∧ st = st1 := by
            have h3 := Option.some.inj h
            refine ⟨(congrArg Prod.fst h3).symm, ?_, ?_⟩
            · have h4 := congrArg Prod.snd h3
              exact (congrArg Prod.fst h4).symm
            · have h4 := congrArg Prod.snd h3
              exact (congrArg Prod.snd h4).symm
          obtain ⟨i, f2, hi1, hi2, hi3, hi4, hi5⟩ := ih rest1 fn1 st1 htf
          refine ⟨i+1, f2, by simpa using hi1, ?_, ?_, by rw [h2.2.1, hi4], ?_⟩
          · intro m hm
            cases m with
            | zero =>
              show (f.occupy_spots need).1 = none
              rw [hocc]
            | succ m =>
              exact hi2 m (by omega)
          · show (rest.getD i default).occupy_spots need = (some st, f2)
            rw [h2.2.2]
            exact hi3
          · rw [h2.1, hf1]
            show f :: rest1 = f :: rest.set i f2
            rw [hi5]

/-- Unified success specification of `_occupy_spots` for the spot counts
that vehicle kinds produce (1 or 2). -/
theorem occupy_spec_12 (f : Floor) (hf : HeapInv f) (n st : Nat) (f2 : Floor)
    (hn : n = 1 ∨ n = 2) (h : f.occupy_spots n = (some st, f2)) :
    (∀ k, k < n → st + k ∈ f.available_set) ∧
      f2.available_set ⊆ f.available_set ∧
      (∀ k, k < n → st + k ∉ f2.available_set) ∧
      f2.floor_number = f.floor_number ∧ HeapInv f2 := by
  rcases hn with hn | hn
  · subst hn
    obtain ⟨h1, _, h3, h4, h5⟩ := occupy_one_some f hf st f2 h
    refine ⟨?_, ?_, ?_, h4, h5⟩
    · intro k hk
      have hk0 : k = 0 := by omega
      rw [hk0, Nat.add_zero]
      exact h1
    · rw [h3]
      exact Finset.erase_subset _ _
    · intro k hk
      have hk0 : k = 0 := by omega
      rw [hk0, Nat.add_zero, h3]
      exact Finset.not_mem_erase _ _
  · subst hn
    obtain ⟨h1, h2, _, h4, h5, h6⟩ := occupy_pair_some f 2 (by omega) st f2 h
    refine ⟨?_, ?_, ?_, h5, h6⟩
    · intro k hk
      interval_cases k
      · rw [Nat.add_zero]; exact h1
      · exact h2
    · rw [h4]
      exact Finset.sdiff_subset
    · intro k hk
      rw [h4, Finset.mem_sdiff]
      intro hmem
      apply hmem.2
      interval_cases k
      · rw [Nat.add_zero]; simp
      · simp

theorem spots_needed_cases (v : Vehicle) : v.spots_needed = 1 ∨ v.spots_needed = 2 := by
  cases v
  · exact Or.inl rfl
  · exact Or.inl rfl
  · exact Or.inr rfl

theorem spots_needed_pos (v : Vehicle) : 0 < v.spots_needed := by
  rcases spots_needed_cases v with h | h <;> omega

theorem lookup_mem : ∀ (m : List (String × List SpotAssignment)) (p : String)
    (v : List SpotAssignment), m.lookup p = some v → (p, v) ∈ m := by
  intro m p v
  induction m with
  | nil => intro h; simp at h
  | cons e t ih =>
    obtain ⟨k, w⟩ := e
    intro h
    rw [List.lookup_cons] at h
    cases hb : (p == k) with
    | true =>
      rw [hb] at h
      have hkp : p = k := beq_iff_eq.mp hb
      have hv : w = v := Option.some.inj h
      rw [← hkp, hv]
      exact List.mem_cons_self _ _
    | false =>
      rw [hb] at h
      exact List.mem_cons_of_mem _ (ih h)

/-- The full reachable-state invariant of a parking lot constructed with
`nf` floors of `spf` spots. -/
structure LotInv (nf spf : Nat) (pl : ParkingLot) : Prop where
  len_floors : pl.floors.length = nf
  floor_ids : ∀ i, i < pl.floors.length → (pl.floors.getD i default).floor_number = i
  heapinv : ∀ i, i < pl.floors.length → HeapInv (pl.floors.getD i default)
  range_ok : ∀ i, i < pl.floors.length →
    (pl.floors.getD i default).available_set ⊆ Finset.range spf
  keys_nodup : (pl.vehicle_map.map Prod.fst).Nodup
  entries_ok : ∀ e ∈ pl.vehicle_map, ∃ fn start n,
    (∃ v : Vehicle, n = v.spots_needed) ∧ fn < pl.floors.length ∧ start + n ≤ spf ∧
    e.2 = (List.range n).map (fun k => SpotAssignment.mk fn (start + k)) ∧
    ∀ k, k < n → start + k ∉ (pl.floors.getD fn default).available_set
  disj : pl.vehicle_map.Pairwise (fun e1 e2 => ∀ a ∈ e1.2, a ∉ e2.2)

theorem lotInv_init (nf spf : Nat) : LotInv nf spf (ParkingLot.init nf spf) := by
  refine ⟨by simp [ParkingLot.init], ?_, ?_, ?_, by simp [ParkingLot.init], ?_, ?_⟩
  · intro i hi
    have hi2 : i < nf := by simpa [ParkingLot.init] using hi
    show (((List.range nf).map (fun i => Floor.init i spf)).getD i default).floor_number = i
    rw [getD_map_range _ nf i hi2]
    rfl
  · intro i hi
    have hi2 : i < nf := by simpa [ParkingLot.init] using hi
    show HeapInv (((List.range nf).map (fun i => Floor.init i spf)).getD i default)
    rw [getD_map_range _ nf i hi2]
    exact heapInv_init i spf
  · intro i hi
    have hi2 : i < nf := by simpa [ParkingLot.init] using hi
    show (((List.range nf).map (fun i => Floor.init i spf)).getD i default).available_set
      ⊆ Finset.range spf
    rw [getD_map_range _ nf i hi2]
    exact Finset.Subset.refl _
  · intro e he
    simp [ParkingLot.init] at he
  · show List.Pairwise _ ([] : List (String × List SpotAssignment))
    exact List.Pairwise.nil

/-- `park_vehicle` once the vehicle kind is resolved: duplicate check,
then the floor scan. -/
theorem park_vehicle_some (pl : ParkingLot) (p : String) (vt : VehicleArg) (v : Vehicle)
    (hres : resolveArg vt = some v) :
    pl.park_vehicle p vt =
      if (pl.vehicle_map.lookup p).isSome then (false, pl)
      else
        match tryFloors v.spots_needed pl.floors with
        | some (floors1, fn, start) =>
          (true, { floors := floors1
                   vehicle_map := pl.vehicle_map ++
                     [(p, (List.range v.spots_needed).map
                         (fun i => SpotAssignment.mk fn (start + i)))] })
        | none => (false, pl) := by
  rw [park_vehicle_eq, hres]

/-- Any failed `park_vehicle` leaves the lot exactly as it was. -/
theorem park_fail_state (pl : ParkingLot) (p : String) (vt : VehicleArg) (pl2 : ParkingLot)
    (h : pl.park_vehicle p vt = (false, pl2)) : pl2 = pl := by
  cases hres : resolveArg vt with
  | none =>
    rw [park_vehicle_eq, hres] at h
    exact (congrArg Prod.snd h).symm
  | some v =>
    rw [park_vehicle_some pl p vt v hres] at h
    by_cases hdup : (pl.vehicle_map.lookup p).isSome
    · rw [if_pos hdup] at h
      exact (congrArg Prod.snd h).symm
    · rw [if_neg hdup] at h
      cases htf : tryFloors v.spots_needed pl.floors with
      | some w =>
        obtain ⟨floors1, fn, st⟩ := w
        rw [htf] at h
        exact absurd (congrArg Prod.fst h) (by simp)
      | none =>
        rw [htf] at h
        exact (congrArg Prod.snd h).symm

/-- `park_vehicle` for a plate already in the registry fails and leaves
the lot unchanged. -/
theorem park_duplicate_fail (pl : ParkingLot) (p : String) (vt : VehicleArg)
    (hdup : (pl.vehicle_map.lookup p).isSome) : pl.park_vehicle p vt = (false, pl) := by
  cases hres : resolveArg vt with
  | none => rw [park_vehicle_eq, hres]
  | some v =>
    rw [park_vehicle_some pl p vt v hres, if_pos hdup]

/-- Characterisation of a successful `park_vehicle`. -/
theorem park_success (pl : ParkingLot) (p : String) (vt : VehicleArg) (pl2 : ParkingLot)
    (h : pl.park_vehicle p vt = (true, pl2)) :
    ∃ v i f2 st, resolveArg vt = some v ∧ pl.vehicle_map.lookup p = none ∧
      i < pl.floors.length ∧
      (∀ m, m < i → ((pl.floors.getD m default).occupy_spots v.spots_needed).1 = none) ∧
      (pl.floors.getD i default).occupy_spots v.spots_needed = (some st, f2) ∧
      pl2 = { floors := pl.floors.set i f2
              vehicle_map := pl.vehicle_map ++
                [(p, (List.range v.spots_needed).map
                    (fun k => SpotAssignment.mk f2.floor_number (st + k)))] } := by
  cases hres : resolveArg vt with
  | none =>
    rw [park_vehicle_eq, hres] at h
    exact absurd (congrArg Prod.fst h) (by simp)
  | some v =>
    rw [park_vehicle_some pl p vt v hres] at h
    by_cases hdup : (pl.vehicle_map.lookup p).isSome
    · rw [if_pos hdup] at h
      exact absurd (congrArg Prod.fst h) (by simp)
    · rw [if_neg hdup] at h
      cases htf : tryFloors v.spots_needed pl.floors with
      | none =>
        rw [htf] at h
        exact absurd (congrArg Prod.fst h) (by simp)
      | some w =>
        obtain ⟨floors1, fn, st⟩ := w
        rw [htf] at h
        obtain ⟨i, f2, hi1, hi2, hi3, hi4, hi5⟩ := tryFloors_some _ _ _ _ _ htf
        refine ⟨v, i, f2, st, rfl, Option.not_isSome_iff_eq_none.mp hdup, hi1, hi2, hi3, ?_⟩
        have h2 : pl2 = { floors := floors1
                          vehicle_map := pl.vehicle_map ++
                            [(p, (List.range v.spots_needed).map
                                (fun k => SpotAssignment.mk fn (st + k)))] } :=
          (congrArg Prod.snd h).symm
        rw [h2, hi5, hi4]

/-- `park_vehicle` with an unrecognised kind string fails and leaves the
lot unchanged. -/
theorem park_badkind_fail (pl : ParkingLot) (p : String) (s : String)
    (hres : vehicleTypeLookup s = none) :
    pl.park_vehicle p (.ofStr s) = (false, pl) := by
  have h2 : resolveArg (.ofStr s) = none := hres
  rw [park_vehicle_eq, h2]

/-- `leave_vehicle` for an unknown plate fails and leaves the lot
unchanged. -/
theorem leave_unknown (pl : ParkingLot) (p : String)
    (h : pl.vehicle_map.lookup p = none) : pl.leave_vehicle p = some (false, pl) := by
  rw [leave_vehicle_eq, h]

/-- Characterisation of `leave_vehicle` when the plate maps to a nonempty
assignment list whose floor index is valid. -/
theorem leave_known (pl : ParkingLot) (p : String) (a : SpotAssignment)
    (tl : List SpotAssignment) (fl : Floor)
    (hlk : pl.vehicle_map.lookup p = some (a :: tl))
    (hfl : pl.floors.get? a.floor = some fl) :
    pl.leave_vehicle p = some (true,
      { floors := pl.floors.set a.floor (fl.free_spots a.spot (a :: tl).length)
        vehicle_map := pl.vehicle_map.eraseP (fun e => e.1 == p) }) := by
  rw [leave_vehicle_eq, hlk]
  show ((match pl.floors.get? a.floor with
    | none => none
    | some fl => some (true,
        ({ floors := pl.floors.set a.floor (fl.free_spots a.spot (a :: tl).length)
           vehicle_map := pl.vehicle_map.eraseP (fun e => e.1 == p) } : ParkingLot))) :
      Option (Bool × ParkingLot)) = _
  rw [hfl]

/-- `park_vehicle` preserves the lot invariant. -/
theorem lotInv_park (nf spf : Nat) (pl : ParkingLot) (p : String) (vt : VehicleArg)
    (hinv : LotInv nf spf pl) : LotInv nf spf (pl.park_vehicle p vt).2 := by
  cases hres : pl.park_vehicle p vt with
  | mk b pl2 =>
    cases b with
    | false =>
      have hsame := park_fail_state pl p vt pl2 hres
      rw [hsame]
      exact hinv
    | true =>
      obtain ⟨v, i, f2, st, hv, hnone, hi, hprev, hocc, hpl2⟩ := park_success pl p vt pl2 hres
      obtain ⟨hin, hsub, hout, hfn, hhi⟩ :=
        occupy_spec_12 (pl.floors.getD i default) (hinv.heapinv i hi) v.spots_needed st f2
          (spots_needed_cases v) hocc
      have hfn2 : f2.floor_number = i := by rw [hfn, hinv.floor_ids i hi]
      have hlen : (pl.floors.set i f2).length = pl.floors.length := List.length_set _ _ _
      have hkey : ∀ e ∈ pl.vehicle_map, e.1 ≠ p := (lookup_none_iff _ _).mp hnone
      have hshrink : ∀ m, m < pl.floors.length →
          ((pl.floors.set i f2).getD m default).available_set ⊆
            (pl.floors.getD m default).available_set := by
        intro m hm
        by_cases him : i = m
        · subst him
          rw [getD_set_self_gen _ _ _ _ hi]
          exact hsub
        · rw [getD_set_ne_gen _ _ _ _ _ him]
      have hspf : st + v.spots_needed ≤ spf := by
        have h1 : st + (v.spots_needed - 1) ∈ (pl.floors.getD i default).available_set :=
          hin _ (by have := spots_needed_pos v; omega)
        have h2 := hinv.range_ok i hi h1
        rw [Finset.mem_range] at h2
        have := spots_needed_pos v
        omega
      subst hpl2
      refine ⟨?_, ?_, ?_, ?_, ?_, ?_, ?_⟩
      · show (pl.floors.set i f2).length = nf
        rw [hlen, hinv.len_floors]
      · intro j hj
        have hj2 : j < pl.floors.length := by rw [← hlen]; exact hj
        show ((pl.floors.set i f2).getD j default).floor_number = j
        by_cases hij : i = j
        · subst hij
          rw [getD_set_self_gen _ _ _ _ hi]
          exact hfn2
        · rw [getD_set_ne_gen _ _ _ _ _ hij]
          exact hinv.floor_ids j hj2
      · intro j hj
        have hj2 : j < pl.floors.length := by rw [← hlen]; exact hj
        show HeapInv ((pl.floors.set i f2).getD j default)
        by_cases hij : i = j
        · subst hij
          rw [getD_set_self_gen _ _ _ _ hi]
          exact hhi
        · rw [getD_set_ne_gen _ _ _ _ _ hij]
          exact hinv.heapinv j hj2
      · intro j hj
        have hj2 : j < pl.floors.length := by rw [← hlen]; exact hj
        exact Finset.Subset.trans (hshrink j hj2) (hinv.range_ok j hj2)
      · show ((pl.vehicle_map ++ [(p, (List.range v.spots_needed).map
            (fun k => SpotAssignment.mk f2.floor_number (st + k)))]).map Prod.fst).Nodup
        rw [List.map_append, List.nodup_append]
        refine ⟨hinv.keys_nodup, by simp, ?_⟩
        intro x hx hx2
        obtain ⟨e, he, hex⟩ := List.mem_map.mp hx
        have hxp : x = p := by simpa using hx2
        exact hkey e he (by rw [hex, hxp])
      · intro e he
        rcases List.mem_append.mp he with he | he
        · obtain ⟨fn1, st1, n1, hv1, hfn1, hspf1, hsp1, hfree1⟩ := hinv.entries_ok e he
          refine ⟨fn1, st1, n1, hv1, ?_, hspf1, hsp1, ?_⟩
          · show fn1 < (pl.floors.set i f2).length
            rw [hlen]
            exact hfn1
          · intro k hk hmem
            exact hfree1 k hk (hshrink fn1 hfn1 hmem)
        · have he2 : e = (p, (List.range v.spots_needed).map
              (fun k => SpotAssignment.mk f2.floor_number (st + k))) := by simpa using he
          subst he2
          refine ⟨f2.floor_number, st, v.spots_needed, ⟨v, rfl⟩, ?_, ?_, rfl, ?_⟩
          · show f2.floor_number < (pl.floors.set i f2).length
            rw [hfn2, hlen]
            exact hi
          · exact hspf
          · intro k hk
            show st + k ∉ ((pl.floors.set i f2).getD f2.floor_number default).available_set
            rw [hfn2, getD_set_self_gen _ _ _ _ hi]
            exact hout k hk
      · show (pl.vehicle_map ++ [(p, (List.range v.spots_needed).map
            (fun k => SpotAssignment.mk f2.floor_number (st + k)))]).Pairwise _
        rw [List.pairwise_append]
        refine ⟨hinv.disj, by simp, ?_⟩
        intro e1 he1 e2 he2
        have he2e : e2 = (p, (List.range v.spots_needed).map
            (fun k => SpotAssignment.mk f2.floor_number (st + k))) := by simpa using he2
        subst he2e
        intro a ha hans
        obtain ⟨fn1, st1, n1, hv1, hfn1, hspf1, hsp1, hfree1⟩ := hinv.entries_ok e1 he1
        rw [hsp1] at ha
        obtain ⟨k1, hk1r, hk1e⟩ := List.mem_map.mp ha
        rw [List.mem_range] at hk1r
        obtain ⟨k2, hk2r, hk2e⟩ := List.mem_map.mp hans
        rw [List.mem_range] at hk2r
        have heq : SpotAssignment.mk fn1 (st1 + k1) =
            SpotAssignment.mk f2.floor_number (st + k2) := hk1e.trans hk2e.symm
        have hfl : fn1 = f2.floor_number := congrArg SpotAssignment.floor heq
        have hsp : st1 + k1 = st + k2 := congrArg SpotAssignment.spot heq
        have hni := hfree1 k1 hk1r
        rw [hfl, hfn2] at hni
        apply hni
        rw [hsp]
        exact hin k2 hk2r

/-- `leave_vehicle` preserves the lot invariant (whenever it returns a
result at all). -/
theorem lotInv_leave (nf spf : Nat) (pl pl2 : ParkingLot) (p : String) (b : Bool)
    (hinv : LotInv nf spf pl) (h : pl.leave_vehicle p = some (b, pl2)) :
    LotInv nf spf pl2 := by
  cases hlk : pl.vehicle_map.lookup p with
  | none =>
    rw [leave_unknown pl p hlk] at h
    have hsame : pl2 = pl := (congrArg Prod.snd (Option.some.inj h)).symm
    rw [hsame]
    exact hinv
  | some spots =>
    have hmem := lookup_mem _ _ _ hlk
    obtain ⟨fn, start, n, ⟨v, hnv⟩, hfn, hspf, hsp, hfree⟩ := hinv.entries_ok _ hmem
    have hnpos : 0 < n := by rw [hnv]; exact spots_needed_pos v
    cases spots with
    | nil =>
      exfalso
      have hlensp : (0 : Nat) = n := by
        have := congrArg List.length hsp
        simpa using this
      omega
    | cons a tl =>
      have hsp2 : a :: tl = (List.range n).map (fun k => SpotAssignment.mk fn (start + k)) := hsp
      have hlensp : (a :: tl).length = n := by
        have := congrArg List.length hsp2
        simpa using this
      have ha : a = SpotAssignment.mk fn start := by
        have h2 : (a :: tl).getD 0 default =
            ((List.range n).map (fun k => SpotAssignment.mk fn (start + k))).getD 0 default := by
          rw [hsp2]
        rw [getD_map_range _ _ _ hnpos] at h2
        simpa using h2
      have hafl : a.floor = fn := by rw [ha]
      have hasp : a.spot = start := by rw [ha]
      have hflv : pl.floors.get? a.floor =
          some (pl.floors.getD a.floor default) :=
        get?_eq_getD _ _ (by rw [hafl]; exact hfn)
      have h2 := (leave_known pl p a tl _ hlk hflv).symm.trans h
      have hpl2 : pl2 = { floors := pl.floors.set a.floor ((pl.floors.getD a.floor default).free_spots a.spot (a :: tl).length), vehicle_map := pl.vehicle_map.eraseP (fun e => e.1 == p) } :=
        (congrArg Prod.snd (Option.some.inj h2)).symm
      obtain ⟨hset, hfnum, hhi⟩ := free_spots_spec (pl.floors.getD a.floor default)
        a.spot (a :: tl).length
      have hlen : (pl.floors.set a.floor
          ((pl.floors.getD a.floor default).free_spots a.spot (a :: tl).length)).length =
          pl.floors.length := List.length_set _ _ _
      have hflt : a.floor < pl.floors.length := by rw [hafl]; exact hfn
      have hsym : Symmetric (fun (e1 e2 : String × List SpotAssignment) =>
          ∀ s ∈ e1.2, s ∉ e2.2) := by
        intro x y hxy s hs hsx
        exact hxy s hsx hs
      have hne_keys := eraseP_key_ne pl.vehicle_map p hinv.keys_nodup
      subst hpl2
      refine ⟨?_, ?_, ?_, ?_, ?_, ?_, ?_⟩
      · show (pl.floors.set a.floor _).length = nf
        rw [hlen, hinv.len_floors]
      · intro j hj
        have hj2 : j < pl.floors.length := by rw [← hlen]; exact hj
        show ((pl.floors.set a.floor _).getD j default).floor_number = j
        by_cases hij : a.floor = j
        · subst hij
          rw [getD_set_self_gen _ _ _ _ hflt, hfnum]
          exact hinv.floor_ids a.floor hflt
        · rw [getD_set_ne_gen _ _ _ _ _ hij]
          exact hinv.floor_ids j hj2
      · intro j hj
        have hj2 : j < pl.floors.length := by rw [← hlen]; exact hj
        show HeapInv ((pl.floors.set a.floor _).getD j default)
        by_cases hij : a.floor = j
        · subst hij
          rw [getD_set_self_gen _ _ _ _ hflt]
          exact hhi
        · rw [getD_set_ne_gen _ _ _ _ _ hij]
          exact hinv.heapinv j hj2
      · intro j hj
        have hj2 : j < pl.floors.length := by rw [← hlen]; exact hj
        by_cases hij : a.floor = j
        · subst hij
          show ((pl.floors.set a.floor _).getD a.floor default).available_set ⊆ _
          rw [getD_set_self_gen _ _ _ _ hflt, hset]
          apply Finset.union_subset (hinv.range_ok a.floor hflt)
          intro x hx
          rw [Finset.mem_Ico] at hx
          rw [Finset.mem_range]
          rw [hasp, hlensp] at hx
          omega
        · show ((pl.floors.set a.floor _).getD j default).available_set ⊆ _
          rw [getD_set_ne_gen _ _ _ _ _ hij]
          exact hinv.range_ok j hj2
      · show ((pl.vehicle_map.eraseP (fun e => e.1 == p)).map Prod.fst).Nodup
        exact hinv.keys_nodup.sublist ((pl.vehicle_map.eraseP_sublist).map Prod.fst)
      · intro e he
        have he2 : e ∈ pl.vehicle_map := List.mem_of_mem_eraseP he
        obtain ⟨fn1, st1, n1, hv1, hfn1, hspf1, hsp1, hfree1⟩ := hinv.entries_ok e he2
        refine ⟨fn1, st1, n1, hv1, ?_, hspf1, hsp1, ?_⟩
        · show fn1 < (pl.floors.set a.floor _).length
          rw [hlen]
          exact hfn1
        · intro k hk
          by_cases hij : a.floor = fn1
          · show st1 + k ∉ ((pl.floors.set a.floor _).getD fn1 default).available_set
            rw [← hij, getD_set_self_gen _ _ _ _ hflt, hset, Finset.mem_union]
            rintro (hx | hx)
            · rw [hij] at hx
              exact hfree1 k hk hx
            · rw [Finset.mem_Ico, hasp, hlensp] at hx
              have hek : e.1 ≠ p := hne_keys e he
              have hdisj := List.Pairwise.forall hsym hinv.disj he2 hmem
                (fun hcontra => hek (congrArg Prod.fst hcontra))
              have hin1 : SpotAssignment.mk fn1 (st1 + k) ∈ e.2 := by
                rw [hsp1]
                exact List.mem_map.mpr ⟨k, List.mem_range.mpr hk, rfl⟩
              apply hdisj _ hin1
              rw [hsp]
              refine List.mem_map.mpr ⟨st1 + k - start, List.mem_range.mpr (by omega), ?_⟩
              rw [← hij, hafl]
              have : start + (st1 + k - start) = st1 + k := by omega
              rw [this]
          · show st1 + k ∉ ((pl.floors.set a.floor _).getD fn1 default).available_set
            rw [getD_set_ne_gen _ _ _ _ _ hij]
            exact hfree1 k hk
      · exact hinv.disj.sublist pl.vehicle_map.eraseP_sublist

/-- Every state reachable from a freshly constructed lot satisfies the
full lot invariant. -/
theorem reachable_inv (nf spf : Nat) (pl : ParkingLot)
    (h : Reachable nf spf pl) : LotInv nf spf pl := by
  induction h with
  | init => exact lotInv_init nf spf
  | park p vt _ ih => exact lotInv_park nf spf _ p vt ih
  | leave p _ hl ih => exact lotInv_leave nf spf _ _ p _ ih hl

theorem lookup_eraseP_ne : ∀ (m : List (String × List SpotAssignment)) (p q : String),
    q ≠ p → (m.eraseP (fun e => e.1 == p)).lookup q = m.lookup q := by
  intro m p q hqp
  induction m with
  | nil => rfl
  | cons a t ih =>
    cases hb : (a.1 == p) with
    | true =>
      rw [List.eraseP_cons, hb]
      show t.lookup q = (a :: t).lookup q
      rw [List.lookup_cons]
      have hq : (q == a.1) = false := by
        have : a.1 = p := beq_iff_eq.mp hb
        exact beq_false_of_ne (by rw [this]; exact hqp)
      rw [hq]
    | false =>
      rw [List.eraseP_cons, hb]
      show (a :: t.eraseP (fun e => e.1 == p)).lookup q = (a :: t).lookup q
      rw [List.lookup_cons, List.lookup_cons]
      cases hq : (q == a.1) with
      | true => rfl
      | false => exact ih

/-- A successful `_occupy_spots` with count 1 or 2 removes exactly the
interval `[start, start+n)` from the free set, and that interval was free
beforehand. -/
theorem occupy_exact_12 (f : Floor) (hf : HeapInv f) (n st : Nat) (f2 : Floor)
    (hn : n = 1 ∨ n = 2) (h : f.occupy_spots n = (some st, f2)) :
    f2.available_set = f.available_set \ Finset.Ico st (st + n) ∧
      Finset.Ico st (st + n) ⊆ f.available_set := by
  rcases hn with hn | hn
  · subst hn
    obtain ⟨h1, _, h3, _, _⟩ := occupy_one_some f hf st f2 h
    constructor
    · rw [h3]
      have : Finset.Ico st (st + 1) = {st} := by
        apply Finset.ext
        intro x
        rw [Finset.mem_Ico, Finset.mem_singleton]
        omega
      rw [this, Finset.sdiff_singleton_eq_erase]
    · intro x hx
      rw [Finset.mem_Ico] at hx
      have : x = st := by omega
      rw [this]
      exact h1
  · subst hn
    obtain ⟨h1, h2, _, h4, _, _⟩ := occupy_pair_some f 2 (by omega) st f2 h
    constructor
    · rw [h4]
      have : Finset.Ico st (st + 2) = {st, st + 1} := by
        apply Finset.ext
        intro x
        rw [Finset.mem_Ico, Finset.mem_insert, Finset.mem_singleton]
        omega
      rw [this]
    · intro x hx
      rw [Finset.mem_Ico] at hx
      have : x = st ∨ x = st + 1 := by omega
      rcases this with h | h <;> rw [h]
      · exact h1
      · exact h2

theorem map_range_spots_toFinset (fn st n : Nat) :
    (((List.range n).map (fun k => SpotAssignment.mk fn (st + k))).map
        SpotAssignment.spot).toFinset = Finset.Ico st (st + n) := by
  apply Finset.ext
  intro x
  rw [List.mem_toFinset, Finset.mem_Ico, List.map_map]
  constructor
  · intro hx
    obtain ⟨k, hk, hke⟩ := List.mem_map.mp hx
    rw [List.mem_range] at hk
    have : st + k = x := hke
    omega
  · intro hx
    refine List.mem_map.mpr ⟨x - st, List.mem_range.mpr (by omega), ?_⟩
    show st + (x - st) = x
    omega

/-!
## Claim theorems
-/

/-- C1 (counterexample): on a floor whose free set is `{0, 1, 2}`, a
request for `n = 3` consecutive spots succeeds with start `0`, yet spot
`0 + 2` of the claimed interval `[0, 3)` is still free afterwards — the
code only ever looks for an adjacent *pair* and removes exactly two
indices, so for `n = 3` it neither requires a run of length 3 nor removes
all `n` indices. -/
theorem C1_counterexample :
    (((Floor.init 0 3).occupy_spots 3).1 = some 0) ∧
      0 + 2 ∈ (((Floor.init 0 3).occupy_spots 3).2).available_set := by decide

/-- C1 (amended): restricted to `n = 2` — the only multi-spot count the
system ever requests (`spots_needed` is 1 or 2) — `_occupy_spots` scans
the free indices in ascending order: on success it returns the lowest
start of an adjacent free pair (no smaller start has two immediately
consecutive free indices) and removes exactly the indices
`[start, start+2)` from the free set; on failure (exactly when no
adjacent free pair exists) the floor is unchanged. -/
theorem C1_amended (f : Floor) (st : Nat) (f2 : Floor) :
    (f.occupy_spots 2 = (some st, f2) →
      st ∈ f.available_set ∧ st + 1 ∈ f.available_set ∧
      (∀ t, t < st → ¬(t ∈ f.available_set ∧ t + 1 ∈ f.available_set)) ∧
      f2.available_set = f.available_set \ Finset.Ico st (st + 2)) ∧
    (f.occupy_spots 2 = (none, f2) →
      f2 = f ∧ ¬ ∃ a, a ∈ f.available_set ∧ a + 1 ∈ f.available_set) := by
  constructor
  · intro h
    obtain ⟨h1, h2, h3, h4, _, _⟩ := occupy_pair_some f 2 (by omega) st f2 h
    refine ⟨h1, h2, h3, ?_⟩
    rw [h4]
    have hico : Finset.Ico st (st + 2) = {st, st + 1} := by
      apply Finset.ext
      intro x
      rw [Finset.mem_Ico, Finset.mem_insert, Finset.mem_singleton]
      omega
    rw [hico]
  · intro h
    refine ⟨occupy_fail f 2 f2 h, ?_⟩
    have hfst : (f.occupy_spots 2).1 = none := by rw [h]
    exact (occupy_pair_none f 2 (by omega)).mp hfst

/-- C1 (amended, witness): a concrete instance — free set `{0, 1, 2, 3}`,
request 2 spots: start 0 is returned and exactly `{0, 1}` is removed. -/
theorem C1_amended_witness :
    (Floor.init 0 4).occupy_spots 2 = (some 0, ((Floor.init 0 4).occupy_spots 2).2) ∧
      ((((Floor.init 0 4).occupy_spots 2).2).available_set =
        (Floor.init 0 4).available_set \ Finset.Ico 0 (0 + 2)) :=
  ⟨by decide,
    ((C1_amended (Floor.init 0 4) 0 (((Floor.init 0 4).occupy_spots 2).2)).1
      (by decide)).2.2.2⟩

/-- C2: nearest/lowest policy.  In any reachable lot state, a successful
park of a single-spot vehicle kind skips exactly the floors with no free
spot (in ascending index order) and records, for the first floor with any
free spot, the smallest currently-free index of that floor. -/
theorem C2_nearest (nf spf : Nat) (pl : ParkingLot) (hr : Reachable nf spf pl)
    (p : String) (vt : VehicleArg) (v : Vehicle) (pl2 : ParkingLot)
    (hv : resolveArg vt = some v) (hone : v.spots_needed = 1)
    (h : pl.park_vehicle p vt = (true, pl2)) :
    ∃ i st, i < pl.floors.length ∧
      (∀ m, m < i → (pl.floors.getD m default).available_set = ∅) ∧
      st ∈ (pl.floors.getD i default).available_set ∧
      (∀ y ∈ (pl.floors.getD i default).available_set, st ≤ y) ∧
      pl2.vehicle_map.lookup p = some [SpotAssignment.mk i st] := by
  have hinv := reachable_inv nf spf pl hr
  obtain ⟨w, i, f2, st, hv2, hnone, hi, hprev, hocc, hpl2⟩ := park_success pl p vt pl2 h
  have hwv : w = v := Option.some.inj (hv2.symm.trans hv)
  rw [hwv] at hocc hprev hpl2
  rw [hone] at hocc
  obtain ⟨hmem, hmin, _, hfn, _⟩ :=
    occupy_one_some (pl.floors.getD i default) (hinv.heapinv i hi) st f2 hocc
  have hfn2 : f2.floor_number = i := by rw [hfn, hinv.floor_ids i hi]
  refine ⟨i, st, hi, ?_, hmem, hmin, ?_⟩
  · intro m hm
    have h1 := hprev m hm
    rw [hone] at h1
    exact (occupy_one_none _ (hinv.heapinv m (hm.trans hi))).mp h1
  · have hns : (List.range v.spots_needed).map
        (fun k => SpotAssignment.mk f2.floor_number (st + k)) = [SpotAssignment.mk i st] := by
      rw [hone]
      simp only [hfn2]
      rfl
    rw [hpl2]
    show (pl.vehicle_map ++ [(p, (List.range v.spots_needed).map
        (fun k => SpotAssignment.mk f2.floor_number (st + k)))]).lookup p =
      some [SpotAssignment.mk i st]
    rw [hns]
    exact lookup_append_fresh _ _ _ hnone

/-- C2 (witness): a fresh 1-floor, 2-spot lot; parking a car lands on
floor 0, spot 0. -/
theorem C2_nearest_witness :
    resolveArg (.ofStr "car") = some Vehicle.Car ∧
    Vehicle.Car.spots_needed = 1 ∧
    (ParkingLot.init 1 2).park_vehicle "A" (.ofStr "car") =
      (true, ((ParkingLot.init 1 2).park_vehicle "A" (.ofStr "car")).2) ∧
    ∃ i st, i < (ParkingLot.init 1 2).floors.length ∧
      (∀ m, m < i → ((ParkingLot.init 1 2).floors.getD m default).available_set = ∅) ∧
      st ∈ ((ParkingLot.init 1 2).floors.getD i default).available_set ∧
      (∀ y ∈ ((ParkingLot.init 1 2).floors.getD i default).available_set, st ≤ y) ∧
      (((ParkingLot.init 1 2).park_vehicle "A" (.ofStr "car")).2).vehicle_map.lookup "A" =
        some [SpotAssignment.mk i st] :=
  ⟨by decide, rfl, by decide,
    C2_nearest 1 2 (ParkingLot.init 1 2) Reachable.init "A" (.ofStr "car") Vehicle.Car
      (((ParkingLot.init 1 2).park_vehicle "A" (.ofStr "car")).2) (by decide) rfl (by decide)⟩

/-- C3: reachable-state invariant.  In every reachable lot state, each
registry entry's assignment list lies on a single valid floor, has
strictly consecutive increasing spot indices, has length equal to some
vehicle kind's `spots_needed`, is disjoint from every other plate's
assignments (and plates are unique keys), every assigned spot is absent
from that floor's free set, and every floor's free set is contained in
`[0, spots_per_floor)`. -/
theorem C3_invariant (nf spf : Nat) (pl : ParkingLot) (hr : Reachable nf spf pl) :
    (∀ e ∈ pl.vehicle_map, ∃ fn v,
      fn < pl.floors.length ∧
      e.2.length = Vehicle.spots_needed v ∧
      (∀ a ∈ e.2, a.floor = fn) ∧
      (∀ j, j + 1 < e.2.length →
        (e.2.getD (j+1) default).spot = (e.2.getD j default).spot + 1) ∧
      (∀ a ∈ e.2, a.spot ∉ (pl.floors.getD fn default).available_set)) ∧
    pl.vehicle_map.Pairwise (fun e1 e2 => ∀ a ∈ e1.2, a ∉ e2.2) ∧
    (pl.vehicle_map.map Prod.fst).Nodup ∧
    (∀ i, i < pl.floors.length →
      (pl.floors.getD i default).available_set ⊆ Finset.range spf) := by
  have hinv := reachable_inv nf spf pl hr
  refine ⟨?_, hinv.disj, hinv.keys_nodup, hinv.range_ok⟩
  intro e he
  obtain ⟨fn, st, n, ⟨v, hnv⟩, hfn, hspf, hsp, hfree⟩ := hinv.entries_ok e he
  have hlen : e.2.length = n := by
    rw [hsp]
    simp
  refine ⟨fn, v, hfn, by rw [hlen, hnv], ?_, ?_, ?_⟩
  · intro a ha
    rw [hsp] at ha
    obtain ⟨k, _, hke⟩ := List.mem_map.mp ha
    rw [← hke]
  · intro j hj
    rw [hlen] at hj
    rw [hsp, getD_map_range _ _ _ hj, getD_map_range _ _ _ (by omega)]
    show st + (j + 1) = st + j + 1
    omega
  · intro a ha
    rw [hsp] at ha
    obtain ⟨k, hk, hke⟩ := List.mem_map.mp ha
    rw [List.mem_range] at hk
    rw [← hke]
    exact hfree k hk

/-- C3 (witness): the invariant holds in the concrete reachable state
obtained by parking one car in a fresh 1-floor, 2-spot lot. -/
theorem C3_invariant_witness :
    (∀ e ∈ (((ParkingLot.init 1 2).park_vehicle "A" (.ofStr "car")).2).vehicle_map, ∃ fn v,
      fn < (((ParkingLot.init 1 2).park_vehicle "A" (.ofStr "car")).2).floors.length ∧
      e.2.length = Vehicle.spots_needed v ∧
      (∀ a ∈ e.2, a.floor = fn) ∧
      (∀ j, j + 1 < e.2.length →
        (e.2.getD (j+1) default).spot = (e.2.getD j default).spot + 1) ∧
      (∀ a ∈ e.2, a.spot ∉
        ((((ParkingLot.init 1 2).park_vehicle "A" (.ofStr "car")).2).floors.getD fn
          default).available_set)) ∧
    (((ParkingLot.init 1 2).park_vehicle "A" (.ofStr "car")).2).vehicle_map.Pairwise
      (fun e1 e2 => ∀ a ∈ e1.2, a ∉ e2.2) ∧
    ((((ParkingLot.init 1 2).park_vehicle "A" (.ofStr "car")).2).vehicle_map.map
      Prod.fst).Nodup ∧
    (∀ i, i < (((ParkingLot.init 1 2).park_vehicle "A" (.ofStr "car")).2).floors.length →
      ((((ParkingLot.init 1 2).park_vehicle "A" (.ofStr "car")).2).floors.getD i
        default).available_set ⊆ Finset.range 2) :=
  C3_invariant 1 2 (((ParkingLot.init 1 2).park_vehicle "A" (.ofStr "car")).2)
    (Reachable.park "A" (.ofStr "car") Reachable.init)

/-- C4: round-trip.  In any reachable state, if `park_vehicle p` succeeds
then the subsequent `leave_vehicle p` succeeds and restores every floor's
free set — and hence every floor's available-spot count — to exactly its
value before the park. -/
theorem C4_roundtrip (nf spf : Nat) (pl : ParkingLot) (hr : Reachable nf spf pl)
    (p : String) (vt : VehicleArg) (pl2 : ParkingLot)
    (h : pl.park_vehicle p vt = (true, pl2)) :
    ∃ pl3, pl2.leave_vehicle p = some (true, pl3) ∧
      pl3.floors.length = pl.floors.length ∧
      ∀ j, j < pl.floors.length →
        (pl3.floors.getD j default).available_set =
          (pl.floors.getD j default).available_set ∧
        (pl3.floors.getD j default).available_spots.length =
          (pl.floors.getD j default).available_spots.length := by
  have hinv := reachable_inv nf spf pl hr
  obtain ⟨v, i, f2, st, hv, hnone, hi, hprev, hocc, hpl2⟩ := park_success pl p vt pl2 h
  have hn12 := spots_needed_cases v
  obtain ⟨hexact, hsubI⟩ := occupy_exact_12 _ (hinv.heapinv i hi) _ st f2 hn12 hocc
  obtain ⟨_, _, _, hfn, _⟩ := occupy_spec_12 _ (hinv.heapinv i hi) _ st f2 hn12 hocc
  have hfn2 : f2.floor_number = i := by rw [hfn, hinv.floor_ids i hi]
  have hnpos := spots_needed_pos v
  cases hns : (List.range v.spots_needed).map
      (fun k => SpotAssignment.mk f2.floor_number (st + k)) with
  | nil =>
    exfalso
    have hlen0 := congrArg List.length hns
    simp at hlen0
    omega
  | cons a tl =>
    have hlenatl : (a :: tl).length = v.spots_needed := by
      have h1 := congrArg List.length hns
      simpa using h1.symm
    have ha : a = SpotAssignment.mk f2.floor_number st := by
      have h2 : ((List.range v.spots_needed).map
          (fun k => SpotAssignment.mk f2.floor_number (st + k))).getD 0 default =
          (a :: tl).getD 0 default := by rw [hns]
      rw [getD_map_range _ _ _ hnpos] at h2
      have h3 : (a :: tl).getD 0 default = a := rfl
      rw [h3] at h2
      rw [← h2, Nat.add_zero]
    have haflr : a.floor = i := by rw [ha]; exact hfn2
    have haspr : a.spot = st := by rw [ha]
    have hlk : pl2.vehicle_map.lookup p = some (a :: tl) := by
      rw [hpl2]
      show (pl.vehicle_map ++ [(p, (List.range v.spots_needed).map
          (fun k => SpotAssignment.mk f2.floor_number (st + k)))]).lookup p = some (a :: tl)
      rw [hns]
      exact lookup_append_fresh _ _ _ hnone
    have hget : pl2.floors.get? a.floor = some f2 := by
      rw [hpl2]
      show (pl.floors.set i f2).get? a.floor = some f2
      rw [haflr, get?_eq_getD _ _ (by rw [List.length_set]; exact hi),
        getD_set_self_gen _ _ _ _ hi]
    have hleave := leave_known pl2 p a tl f2 hlk hget
    have hF3set : (f2.free_spots a.spot (a :: tl).length).available_set =
        (pl.floors.getD i default).available_set := by
      obtain ⟨hs, _, _⟩ := free_spots_spec f2 a.spot (a :: tl).length
      rw [hs, haspr, hlenatl, hexact]
      exact Finset.sdiff_union_of_subset hsubI
    have hF3inv : HeapInv (f2.free_spots a.spot (a :: tl).length) :=
      (free_spots_spec _ _ _).2.2
    have hfloors3 : pl2.floors.set a.floor (f2.free_spots a.spot (a :: tl).length) =
        pl.floors.set i (f2.free_spots a.spot (a :: tl).length) := by
      rw [hpl2]
      show (pl.floors.set i f2).set a.floor _ = _
      rw [haflr, List.set_set]
    refine ⟨_, hleave, ?_, ?_⟩
    · show (pl2.floors.set a.floor (f2.free_spots a.spot (a :: tl).length)).length =
        pl.floors.length
      rw [hfloors3, List.length_set]
    · intro j hj
      by_cases hij : i = j
      · subst hij
        constructor
        · show (((pl2.floors.set a.floor (f2.free_spots a.spot (a :: tl).length)).getD i
            default)).available_set = _
          rw [hfloors3, getD_set_self_gen _ _ _ _ hi]
          exact hF3set
        · show (((pl2.floors.set a.floor (f2.free_spots a.spot (a :: tl).length)).getD i
            default)).available_spots.length = _
          rw [hfloors3, getD_set_self_gen _ _ _ _ hi, hF3inv.length_eq,
            (hinv.heapinv i hi).length_eq, hF3set]
      · constructor
        · show (((pl2.floors.set a.floor (f2.free_spots a.spot (a :: tl).length)).getD j
            default)).available_set = _
          rw [hfloors3, getD_set_ne_gen _ _ _ _ _ hij]
        · show (((pl2.floors.set a.floor (f2.free_spots a.spot (a :: tl).length)).getD j
            default)).available_spots.length = _
          rw [hfloors3, getD_set_ne_gen _ _ _ _ _ hij]

/-- C4 (witness): parking a truck in a fresh 1-floor, 3-spot lot and
leaving again restores the floor exactly. -/
theorem C4_roundtrip_witness :
    (ParkingLot.init 1 3).park_vehicle "T" (.ofStr "truck") =
      (true, ((ParkingLot.init 1 3).park_vehicle "T" (.ofStr "truck")).2) ∧
    ∃ pl3, (((ParkingLot.init 1 3).park_vehicle "T" (.ofStr "truck")).2).leave_vehicle "T" =
        some (true, pl3) ∧
      pl3.floors.length = (ParkingLot.init 1 3).floors.length ∧
      ∀ j, j < (ParkingLot.init 1 3).floors.length →
        (pl3.floors.getD j default).available_set =
          ((ParkingLot.init 1 3).floors.getD j default).available_set ∧
        (pl3.floors.getD j default).available_spots.length =
          ((ParkingLot.init 1 3).floors.getD j default).available_spots.length :=
  ⟨by decide,
    C4_roundtrip 1 3 (ParkingLot.init 1 3) Reachable.init "T" (.ofStr "truck")
      (((ParkingLot.init 1 3).park_vehicle "T" (.ofStr "truck")).2) (by decide)⟩

/-- C5: failed park is atomic.  Whenever `park_vehicle` returns failure the
lot — registry and every floor — is exactly as before the call; moreover a
duplicate plate always fails, and an unrecognised kind string always
fails. -/
theorem C5_park_atomic (pl : ParkingLot) (p : String) (vt : VehicleArg) :
    ((pl.park_vehicle p vt).1 = false → (pl.park_vehicle p vt).2 = pl) ∧
    ((pl.vehicle_map.lookup p).isSome → pl.park_vehicle p vt = (false, pl)) ∧
    (∀ s, vt = .ofStr s → vehicleTypeLookup s = none →
      pl.park_vehicle p vt = (false, pl)) := by
  refine ⟨?_, ?_, ?_⟩
  · intro h1
    cases hres : pl.park_vehicle p vt with
    | mk b pl2 =>
      rw [hres] at h1
      have hb : b = false := h1
      rw [hb] at hres
      exact park_fail_state pl p vt pl2 hres
  · intro hdup
    exact park_duplicate_fail pl p vt hdup
  · intro s hs hlk
    rw [hs]
    exact park_badkind_fail pl p s hlk

/-- C5 (witness): a second park of the same plate fails and leaves the
concrete one-car lot unchanged. -/
theorem C5_park_atomic_witness :
    (((((ParkingLot.init 1 1).park_vehicle "A" (.ofStr "car")).2).vehicle_map.lookup
      "A").isSome) ∧
    ((((ParkingLot.init 1 1).park_vehicle "A" (.ofStr "car")).2).park_vehicle "A"
        (.ofStr "car") =
      (false, (((ParkingLot.init 1 1).park_vehicle "A" (.ofStr "car")).2))) :=
  ⟨by decide,
    (C5_park_atomic (((ParkingLot.init 1 1).park_vehicle "A" (.ofStr "car")).2) "A"
      (.ofStr "car")).2.1 (by decide)⟩

/-- C6: `leave_vehicle` fails (and changes nothing) exactly for a plate
with no active assignment; on success it removes the registry entry
(leaving all other entries' lookups unchanged), returns to the owning
floor's free set exactly the recorded spot indices, and leaves every
other floor untouched. -/
theorem C6_leave (nf spf : Nat) (pl : ParkingLot) (hr : Reachable nf spf pl) (p : String) :
    (pl.vehicle_map.lookup p = none → pl.leave_vehicle p = some (false, pl)) ∧
    (∀ spots, pl.vehicle_map.lookup p = some spots →
      ∃ pl2 fn, pl.leave_vehicle p = some (true, pl2) ∧
        fn < pl.floors.length ∧
        (∀ a ∈ spots, a.floor = fn) ∧
        pl2.vehicle_map.lookup p = none ∧
        (∀ q, q ≠ p → pl2.vehicle_map.lookup q = pl.vehicle_map.lookup q) ∧
        (pl2.floors.getD fn default).available_set =
          (pl.floors.getD fn default).available_set ∪
            (spots.map SpotAssignment.spot).toFinset ∧
        (∀ j, j < pl.floors.length → j ≠ fn →
          pl2.floors.getD j default = pl.floors.getD j default) ∧
        pl2.floors.length = pl.floors.length) := by
  have hinv := reachable_inv nf spf pl hr
  refine ⟨leave_unknown pl p, ?_⟩
  intro spots hlk
  have hmem := lookup_mem _ _ _ hlk
  obtain ⟨fn, start, n, ⟨v, hnv⟩, hfn, hspf, hsp, hfree⟩ := hinv.entries_ok _ hmem
  have hsp2 : spots = (List.range n).map (fun k => SpotAssignment.mk fn (start + k)) := hsp
  have hnpos : 0 < n := by rw [hnv]; exact spots_needed_pos v
  cases spots with
  | nil =>
    exfalso
    have hlen0 := congrArg List.length hsp2
    simp at hlen0
    omega
  | cons a tl =>
    have hlenatl : (a :: tl).length = n := by
      have h1 := congrArg List.length hsp2
      simpa using h1
    have ha : a = SpotAssignment.mk fn start := by
      have h2 : (a :: tl).getD 0 default =
          ((List.range n).map (fun k => SpotAssignment.mk fn (start + k))).getD 0 default := by
        rw [hsp2]
      rw [getD_map_range _ _ _ hnpos] at h2
      have h3 : (a :: tl).getD 0 default = a := rfl
      rw [h3] at h2
      rw [h2, Nat.add_zero]
    have haflr : a.floor = fn := by rw [ha]
    have haspr : a.spot = start := by rw [ha]
    have hget : pl.floors.get? a.floor = some (pl.floors.getD a.floor default) :=
      get?_eq_getD _ _ (by rw [haflr]; exact hfn)
    have hleave := leave_known pl p a tl (pl.floors.getD a.floor default) hlk hget
    refine ⟨_, fn, hleave, hfn, ?_, ?_, ?_, ?_, ?_, ?_⟩
    · intro b hb
      rw [hsp2] at hb
      obtain ⟨k, _, hke⟩ := List.mem_map.mp hb
      rw [← hke]
    · show (pl.vehicle_map.eraseP (fun e => e.1 == p)).lookup p = none
      exact (lookup_none_iff _ _).mpr (eraseP_key_ne _ p hinv.keys_nodup)
    · intro q hq
      show (pl.vehicle_map.eraseP (fun e => e.1 == p)).lookup q = pl.vehicle_map.lookup q
      exact lookup_eraseP_ne _ p q hq
    · show (((pl.floors.set a.floor ((pl.floors.getD a.floor default).free_spots a.spot
        (a :: tl).length)).getD fn default)).available_set = _
      have hafn : a.floor = fn := haflr
      rw [← hafn, getD_set_self_gen _ _ _ _ (by rw [hafn]; exact hfn)]
      obtain ⟨hs, _, _⟩ := free_spots_spec (pl.floors.getD a.floor default) a.spot
        (a :: tl).length
      rw [hs, hafn, haspr, hlenatl]
      have himg : ((a :: tl).map SpotAssignment.spot).toFinset =
          Finset.Ico start (start + n) := by
        rw [hsp2]
        exact map_range_spots_toFinset fn start n
      rw [himg]
    · intro j hj hjfn
      show ((pl.floors.set a.floor ((pl.floors.getD a.floor default).free_spots a.spot
        (a :: tl).length)).getD j default) = pl.floors.getD j default
      exact getD_set_ne_gen _ _ _ _ _ (by rw [haflr]; exact fun hh => hjfn hh.symm)
    · show (pl.floors.set a.floor ((pl.floors.getD a.floor default).free_spots a.spot
        (a :: tl).length)).length = pl.floors.length
      exact List.length_set _ _ _

/-- C6 (witness): leaving the one parked car of a concrete reachable
state succeeds, empties its registry entry and restores spot 0. -/
theorem C6_leave_witness :
    (((ParkingLot.init 1 2).park_vehicle "A" (.ofStr "car")).2).vehicle_map.lookup "A" =
      some [SpotAssignment.mk 0 0] ∧
    ∃ pl2 fn,
      (((ParkingLot.init 1 2).park_vehicle "A" (.ofStr "car")).2).leave_vehicle "A" =
        some (true, pl2) ∧
      fn < (((ParkingLot.init 1 2).park_vehicle "A" (.ofStr "car")).2).floors.length ∧
      (∀ a ∈ [SpotAssignment.mk 0 0], a.floor = fn) ∧
      pl2.vehicle_map.lookup "A" = none ∧
      (∀ q, q ≠ "A" → pl2.vehicle_map.lookup q =
        (((ParkingLot.init 1 2).park_vehicle "A" (.ofStr "car")).2).vehicle_map.lookup q) ∧
      (pl2.floors.getD fn default).available_set =
        ((((ParkingLot.init 1 2).park_vehicle "A" (.ofStr "car")).2).floors.getD fn
          default).available_set ∪
          (([SpotAssignment.mk 0 0]).map SpotAssignment.spot).toFinset ∧
      (∀ j, j < (((ParkingLot.init 1 2).park_vehicle "A" (.ofStr "car")).2).floors.length →
        j ≠ fn → pl2.floors.getD j default =
          (((ParkingLot.init 1 2).park_vehicle "A" (.ofStr "car")).2).floors.getD j default) ∧
      pl2.floors.length =
        (((ParkingLot.init 1 2).park_vehicle "A" (.ofStr "car")).2).floors.length :=
  ⟨by decide,
    (C6_leave 1 2 (((ParkingLot.init 1 2).park_vehicle "A" (.ofStr "car")).2)
      (Reachable.park "A" (.ofStr "car") Reachable.init) "A").2
      [SpotAssignment.mk 0 0] (by decide)⟩

/-- C7: vehicle-kind string resolution.  A kind string resolves exactly
when it matches "bike", "car" or "truck" case-insensitively; a resolved
Truck needs 2 spots and any other resolved kind needs 1; an unresolvable
string makes `park_vehicle` fail with the lot unchanged. -/
theorem C7_kind_resolution (pl : ParkingLot) (p s : String) :
    ((vehicleTypeLookup s).isSome ↔
      (pyUpper s = pyUpper "bike" ∨ pyUpper s = pyUpper "car" ∨
        pyUpper s = pyUpper "truck")) ∧
    (∀ v, vehicleTypeLookup s = some v →
      ((pyUpper s = pyUpper "truck" → v.spots_needed = 2) ∧
       (pyUpper s ≠ pyUpper "truck" → v.spots_needed = 1))) ∧
    (vehicleTypeLookup s = none → pl.park_vehicle p (.ofStr s) = (false, pl)) := by
  have e1 : pyUpper "bike" = "BIKE" := by decide
  have e2 : pyUpper "car" = "CAR" := by decide
  have e3 : pyUpper "truck" = "TRUCK" := by decide
  refine ⟨?_, ?_, ?_⟩
  · rw [e1, e2, e3]
    unfold vehicleTypeLookup
    by_cases h1 : pyUpper s = "BIKE"
    · rw [if_pos h1]
      simp [h1]
    · rw [if_neg h1]
      by_cases h2 : pyUpper s = "CAR"
      · rw [if_pos h2]
        simp [h2]
      · rw [if_neg h2]
        by_cases h3 : pyUpper s = "TRUCK"
        · rw [if_pos h3]
          simp [h3]
        · rw [if_neg h3]
          simp [h1, h2, h3]
  · intro v hv
    rw [e3]
    unfold vehicleTypeLookup at hv
    by_cases h1 : pyUpper s = "BIKE"
    · rw [if_pos h1] at hv
      have hvb : v = Vehicle.Bike := (Option.some.inj hv).symm
      subst hvb
      refine ⟨?_, fun _ => rfl⟩
      intro ht
      rw [h1] at ht
      exact absurd ht (by decide)
    · rw [if_neg h1] at hv
      by_cases h2 : pyUpper s = "CAR"
      · rw [if_pos h2] at hv
        have hvc : v = Vehicle.Car := (Option.some.inj hv).symm
        subst hvc
        refine ⟨?_, fun _ => rfl⟩
        intro ht
        rw [h2] at ht
        exact absurd ht (by decide)
      · rw [if_neg h2] at hv
        by_cases h3 : pyUpper s = "TRUCK"
        · rw [if_pos h3] at hv
          have hvt : v = Vehicle.Truck := (Option.some.inj hv).symm
          subst hvt
          refine ⟨fun _ => rfl, ?_⟩
          intro hne
          exact absurd h3 hne
        · rw [if_neg h3] at hv
          exact absurd hv (by simp)
  · intro hlk
    exact park_badkind_fail pl p s hlk

/-- C7 (witness): "CAR" resolves (case-insensitively) to a 1-spot kind,
and the unrecognised string "jet" makes a concrete park fail with the lot
unchanged. -/
theorem C7_kind_resolution_witness :
    vehicleTypeLookup "jet" = none ∧
    (ParkingLot.init 1 1).park_vehicle "A" (.ofStr "jet") = (false, ParkingLot.init 1 1) :=
  ⟨by decide,
    (C7_kind_resolution (ParkingLot.init 1 1) "A" "jet").2.2 (by decide)⟩

/-- C8: `get_available_spots_per_floor` returns the sentinel `-1` exactly
for a negative or out-of-range floor index; for a valid index it returns
the floor's current free-spot count, which is non-negative — so the
sentinel is always distinguishable from a valid zero. -/
theorem C8_available_count (nf spf : Nat) (pl : ParkingLot) (hr : Reachable nf spf pl)
    (fn : Int) :
    ((fn < 0 ∨ (pl.floors.length : Int) ≤ fn) ↔
      pl.get_available_spots_per_floor fn = -1) ∧
    (0 ≤ fn → fn < (pl.floors.length : Int) →
      pl.get_available_spots_per_floor fn =
        ((pl.floors.getD fn.toNat default).available_set.card : Int) ∧
      0 ≤ pl.get_available_spots_per_floor fn) := by
  have hinv := reachable_inv nf spf pl hr
  unfold ParkingLot.get_available_spots_per_floor
  by_cases hvalid : 0 ≤ fn ∧ fn < (pl.floors.length : Int)
  · rw [if_pos hvalid]
    have hnat : fn.toNat < pl.floors.length := by omega
    constructor
    · constructor
      · intro h1
        omega
      · intro h1
        omega
    · intro _ _
      constructor
      · have hle := (hinv.heapinv fn.toNat hnat).length_eq
        exact congrArg Nat.cast hle
      · exact Int.natCast_nonneg _
  · rw [if_neg hvalid]
    constructor
    · constructor
      · intro _
        rfl
      · intro _
        omega
    · intro h1 h2
      exact absurd ⟨h1, h2⟩ hvalid

/-- C8 (witness): on a fresh 2-floor, 3-spot lot, floor index 1 is valid
and reports its free-set size, a non-negative integer. -/
theorem C8_available_count_witness :
    (ParkingLot.init 2 3).get_available_spots_per_floor 1 =
      (((ParkingLot.init 2 3).floors.getD (1 : Int).toNat default).available_set.card : Int) ∧
    0 ≤ (ParkingLot.init 2 3).get_available_spots_per_floor 1 :=
  (C8_available_count 2 3 (ParkingLot.init 2 3) Reachable.init 1).2 (by decide) (by decide)

/-- C9: `is_full` is true exactly when every floor's free set is empty;
and in any state of a lot constructed with zero floors or zero spots per
floor, `is_full` is true and every park attempt fails. -/
theorem C9_is_full (nf spf : Nat) (pl : ParkingLot) (hr : Reachable nf spf pl) :
    (pl.is_full = true ↔
      ∀ i, i < pl.floors.length → (pl.floors.getD i default).available_set = ∅) ∧
    ((nf = 0 ∨ spf = 0) →
      pl.is_full = true ∧ ∀ p vt, (pl.park_vehicle p vt).1 = false) := by
  have hinv := reachable_inv nf spf pl hr
  have hempty : ∀ i, i < pl.floors.length →
      ((pl.floors.getD i default).available_spots.isEmpty = true ↔
        (pl.floors.getD i default).available_set = ∅) := by
    intro i hi
    have hf := hinv.heapinv i hi
    rw [List.isEmpty_iff]
    constructor
    · intro he
      have h2 := hf.2
      rw [he] at h2
      have h3 : (pl.floors.getD i default).available_set.val = 0 := by
        rw [← h2]
        rfl
      exact Finset.val_eq_zero.mp h3
    · intro he
      have h3 := hf.2
      rw [he] at h3
      have h4 : ((pl.floors.getD i default).available_spots : Multiset Nat) = 0 := by
        rw [h3]
        rfl
      exact (Multiset.coe_eq_zero _).mp h4
  have hgetD_eq : ∀ i (hi : i < pl.floors.length),
      pl.floors.getD i default = pl.floors[i] := by
    intro i hi
    rw [List.getD_eq_getElem?_getD, List.getElem?_eq_getElem hi, Option.getD_some]
  have hfull_iff : pl.is_full = true ↔
      ∀ i, i < pl.floors.length → (pl.floors.getD i default).available_set = ∅ := by
    rw [ParkingLot.is_full, List.all_eq_true]
    constructor
    · intro hall i hi
      refine (hempty i hi).mp (hall _ ?_)
      rw [hgetD_eq i hi]
      exact List.getElem_mem hi
    · intro hall f hf
      obtain ⟨i, hi, hgi⟩ := List.mem_iff_getElem.mp hf
      have hfd : pl.floors.getD i default = f := by rw [hgetD_eq i hi, hgi]
      rw [← hfd]
      exact (hempty i hi).mpr (hall i hi)
  refine ⟨hfull_iff, ?_⟩
  intro h0
  constructor
  · refine hfull_iff.mpr ?_
    intro i hi
    rcases h0 with h0 | h0
    · rw [hinv.len_floors, h0] at hi
      omega
    · have hsub := hinv.range_ok i hi
      rw [h0] at hsub
      simpa [Finset.subset_empty] using hsub
  · intro p vt
    cases hres : pl.park_vehicle p vt with
    | mk b pl2 =>
      cases b with
      | false => rfl
      | true =>
        exfalso
        obtain ⟨v, i, f2, st, hv, hnone, hi2, hprev, hocc, hpl2⟩ :=
          park_success pl p vt pl2 hres
        obtain ⟨hin, _, _, _, _⟩ := occupy_spec_12 _ (hinv.heapinv i hi2) _ st f2
          (spots_needed_cases v) hocc
        have hin0 := hin 0 (spots_needed_pos v)
        rcases h0 with h0 | h0
        · rw [hinv.len_floors, h0] at hi2
          omega
        · have hsub := hinv.range_ok i hi2 hin0
          rw [h0] at hsub
          simp at hsub

/-- C9 (witness): a lot with zero floors is full and rejects a concrete
park attempt. -/
theorem C9_is_full_witness :
    (ParkingLot.init 0 5).is_full = true ∧
      ((ParkingLot.init 0 5).park_vehicle "A" (.ofStr "car")).1 = false :=
  ⟨((C9_is_full 0 5 (ParkingLot.init 0 5) Reachable.init).2 (Or.inl rfl)).1,
    ((C9_is_full 0 5 (ParkingLot.init 0 5) Reachable.init).2 (Or.inl rfl)).2 "A"
      (.ofStr "car")⟩

/-- C10: representation coherence.  A freshly constructed floor is
coherent (heap list = free set as a multiset, min-heap property); every
`_occupy_spots` and every `free_spots` call preserves coherence; on a
coherent floor the heap list has no duplicates, its length equals the
free-set size (the count read by `get_available_spots_per_floor` and
`is_full`), and the single-spot heap-pop returns the true minimum free
index. -/
theorem C10_coherence (fnum spf : Nat) (f : Floor) :
    HeapInv (Floor.init fnum spf) ∧
    (HeapInv f → ∀ n, HeapInv (f.occupy_spots n).2) ∧
    (∀ s n, HeapInv (f.free_spots s n)) ∧
    (HeapInv f → heapProp f.available_spots ∧ f.available_spots.Nodup ∧
      f.available_spots.length = f.available_set.card) ∧
    (HeapInv f → ∀ st f2, f.occupy_spots 1 = (some st, f2) →
      st ∈ f.available_set ∧ ∀ y ∈ f.available_set, st ≤ y) := by
  refine ⟨heapInv_init fnum spf, ?_, ?_, ?_, ?_⟩
  · intro hf n
    cases hres : f.occupy_spots n with
    | mk r f2 =>
      cases r with
      | none =>
        rw [occupy_fail f n f2 hres]
        exact hf
      | some st =>
        by_cases hn : n = 1
        · subst hn
          exact (occupy_one_some f hf st f2 hres).2.2.2.2
        · exact (occupy_pair_some f n hn st f2 hres).2.2.2.2.2
  · intro s n
    exact (free_spots_spec f s n).2.2
  · intro hf
    refine ⟨hf.1, ?_, hf.length_eq⟩
    have h2 : ((f.available_spots : List Nat) : Multiset Nat).Nodup := by
      rw [hf.2]
      exact f.available_set.nodup
    exact Multiset.coe_nodup.mp h2
  · intro hf st f2 h
    obtain ⟨h1, h2, _, _, _⟩ := occupy_one_some f hf st f2 h
    exact ⟨h1, h2⟩

/-- C10 (witness): the fresh 3-spot floor is coherent; its heap length
equals its free-set size and popping one spot returns the minimum, 0. -/
theorem C10_coherence_witness :
    HeapInv (Floor.init 0 3) ∧
    (Floor.init 0 3).available_spots.length = (Floor.init 0 3).available_set.card ∧
    (0 ∈ (Floor.init 0 3).available_set ∧
      ∀ y ∈ (Floor.init 0 3).available_set, 0 ≤ y) :=
  ⟨by decide,
    ((C10_coherence 0 3 (Floor.init 0 3)).2.2.2.1 (by decide)).2.2,
    (C10_coherence 0 3 (Floor.init 0 3)).2.2.2.2 (by decide) 0
      (((Floor.init 0 3).occupy_spots 1).2) (by decide)⟩
